import Mathlib

/-!
Verification of the board/move model and the MCTS search of the zgc4
repository. Definitions are shallow embeddings of the Rust source in
src/board.rs, src/player/mcts.rs and src/player/mod.rs. usize values are
modelled as Nat; the two sites in the source that use wrapping arithmetic
(MoveVectorIter::next) are modelled with an explicit 2^64 wrap.
-/

namespace ZG4

/-- Entry (src/board.rs). -/
inductive Entry where
  | Empty : Entry
  | Block : Entry
  | Player1 : Entry
  | Player2 : Entry
deriving DecidableEq

/-- Entry::is_empty. -/
def Entry.is_empty (e : Entry) : Bool := e == Entry.Empty

/-- Entry::flip. -/
def Entry.flip : Entry → Entry
  | .Empty => .Block
  | .Block => .Empty
  | .Player1 => .Player2
  | .Player2 => .Player1

/-- Side (src/board.rs). -/
inductive Side where
  | North : Side
  | East : Side
  | South : Side
  | West : Side
deriving DecidableEq

/-- Side::succ. -/
def Side.succ : Side → Option Side
  | .North => some .East
  | .East => some .South
  | .South => some .West
  | .West => none

/-- GameState (src/board.rs). -/
inductive GameState where
  | Ongoing : GameState
  | Drawn : GameState
  | Won : GameState
deriving DecidableEq

/-- Move (src/board.rs): unvalidated (side, offset) descriptor. -/
structure Move where
  side : Side
  pos : Nat
deriving DecidableEq

/-- Board (src/board.rs). The boxed slice is modelled as a list; the
well-formedness fact data.length = size * size, guaranteed in Rust by
construction, is carried as an explicit hypothesis where needed. -/
structure Board where
  size : Nat
  active : Entry
  nlegal : Nat
  state : GameState
  data : List Entry
deriving DecidableEq

/-- LegalMove (src/board.rs): resolved move proof. -/
structure LegalMove where
  base : Move
  row : Nat
  col : Nat
  is_winning : Bool
deriving DecidableEq

/-- Error (src/board.rs). -/
inductive Error where
  | IllegalMove : Move → Error
deriving DecidableEq

/-- Board::new. -/
def Board.new (size : Nat) : Board :=
  { size := size, active := .Player1, nlegal := size * 4, state := .Ongoing,
    data := List.replicate (size * size) .Empty }

/-- Board::index_for. -/
def Board.index_for (b : Board) (row col : Nat) : Nat := row * b.size + col

/-- Board::get: checked lookup at the flattened index. -/
def Board.get (b : Board) (row col : Nat) : Option Entry := b.data[b.index_for row col]?

/-- Board::get_unchecked: the source performs an unchecked read; every
verified use is at an in-bounds index, where getD coincides with it. -/
def Board.get_unchecked (b : Board) (row col : Nat) : Entry :=
  b.data.getD (b.index_for row col) .Empty

/-- Board::set. The source unwraps get_mut (panics out of range, modelled as
the identity, never reached in verified uses) and decrements the usize
nlegal (underflow impossible whenever nlegal satisfies the counting
invariant, which is proved below; modelled as Nat subtraction). -/
def Board.set (b : Board) (row col : Nat) (entry : Entry) : Board :=
  let i := b.index_for row col
  match b.data[i]? with
  | none => b
  | some e =>
    let n1 := if e.is_empty ∧ ¬ entry.is_empty ∧ (row = 0 ∨ row = b.size - 1)
      then b.nlegal - 1 else b.nlegal
    let n2 := if e.is_empty ∧ ¬ entry.is_empty ∧ (col = 0 ∨ col = b.size - 1)
      then n1 - 1 else n1
    { b with nlegal := n2, data := b.data.set i entry }

/-- Board::pass. -/
def Board.pass (b : Board) : Board := { b with active := b.active.flip }

/-- The shared run-counting loop body of the four is_winning scans:
`if is_match { n += 1; if n >= 4 { return true; } } else { n = 0; }`. -/
def winGo (b : Board) (isThis : Nat → Nat → Bool) : Nat → List (Nat × Nat) → Bool
  | _, [] => false
  | n, (r1, c1) :: rest =>
    if isThis r1 c1 || (b.active == b.get_unchecked r1 c1) then
      if n + 1 ≥ 4 then true else winGo b isThis (n + 1) rest
    else winGo b isThis 0 rest

/-- The list a..n (the Rust range a..n as an iterator). -/
def rangeFrom (a n : Nat) : List Nat := (List.range (n - a)).map fun k => a + k

/-- Cells scanned by is_winning_horiz: (row, col1) for col1 in 0..size. -/
def Board.horizCells (b : Board) (row : Nat) : List (Nat × Nat) :=
  (List.range b.size).map fun c1 => (row, c1)

/-- Cells scanned by is_winning_vert. -/
def Board.vertCells (b : Board) (col : Nat) : List (Nat × Nat) :=
  (List.range b.size).map fun r1 => (r1, col)

/-- Cells scanned by is_winning_diag_nw_se:
((row-d)..size).zip((col-d)..size) with d = min row col. -/
def Board.diagNWSECells (b : Board) (row col : Nat) : List (Nat × Nat) :=
  let d := min row col
  (rangeFrom (row - d) b.size).zip (rangeFrom (col - d) b.size)

/-- Cells scanned by is_winning_diag_sw_ne:
(0..(row+d+1)).rev().zip((col-d)..size) with d = min (size-row-1) col.
The source computes size - row - 1 in usize; every verified use has
row < size, where Nat subtraction coincides. -/
def Board.diagSWNECells (b : Board) (row col : Nat) : List (Nat × Nat) :=
  let d := min (b.size - row - 1) col
  ((List.range (row + d + 1)).reverse).zip (rangeFrom (col - d) b.size)

/-- Board::is_winning_horiz. -/
def Board.is_winning_horiz (b : Board) (row col : Nat) : Bool :=
  winGo b (fun _ c1 => c1 == col) 0 (b.horizCells row)

/-- Board::is_winning_vert. -/
def Board.is_winning_vert (b : Board) (row col : Nat) : Bool :=
  winGo b (fun r1 _ => r1 == row) 0 (b.vertCells col)

/-- Board::is_winning_diag_nw_se. -/
def Board.is_winning_diag_nw_se (b : Board) (row col : Nat) : Bool :=
  winGo b (fun r1 c1 => r1 == row && c1 == col) 0 (b.diagNWSECells row col)

/-- Board::is_winning_diag_sw_ne. -/
def Board.is_winning_diag_sw_ne (b : Board) (row col : Nat) : Bool :=
  winGo b (fun r1 c1 => r1 == row && c1 == col) 0 (b.diagSWNECells row col)

/-- Board::is_winning. -/
def Board.is_winning (b : Board) (row col : Nat) : Bool :=
  b.is_winning_horiz row col || b.is_winning_vert row col ||
    b.is_winning_diag_nw_se row col || b.is_winning_diag_sw_ne row col

/-- The usize modulus. -/
def USIZE : Nat := 2 ^ 64

/-- usize wrapping_sub(1) (for values below 2^64). -/
def wrapSub1 (n : Nat) : Nat := if n = 0 then USIZE - 1 else n - 1

/-- The coordinate step of MoveVectorIter::next. North and West use
wrapping_add(1), which never wraps because coordinates stay below the
board size; East and South use wrapping_sub(1), which wraps at 0. -/
def Side.stepRC : Side → Nat × Nat → Nat × Nat
  | .North, (row, col) => (row + 1, col)
  | .East, (row, col) => (row, wrapSub1 col)
  | .South, (row, col) => (wrapSub1 row, col)
  | .West, (row, col) => (row, col + 1)

/-- The list of items yielded by MoveVectorIter, with fuel. The iterator
yields at most size items before leaving the grid, so fuel b.size is
exact; theorem c4 below validates this against the stopping rule. -/
def moveVectorFuel (b : Board) (side : Side) : Nat → Nat → Nat → List (Nat × Nat × Entry)
  | 0, _, _ => []
  | fuel + 1, row, col =>
    if b.size ≤ row ∨ b.size ≤ col then []
    else
      let p := side.stepRC (row, col)
      (row, col, b.get_unchecked row col) :: moveVectorFuel b side fuel p.1 p.2

/-- Move::origin. The source computes b.size - 1 in usize; boards have
size ≥ 1 whenever a move can resolve, where Nat subtraction coincides. -/
def Move.origin (m : Move) (b : Board) : Nat × Nat :=
  match m.side with
  | .North => (0, m.pos)
  | .East => (m.pos, b.size - 1)
  | .South => (b.size - 1, m.pos)
  | .West => (m.pos, 0)

/-- Move::is_legal. -/
def Move.is_legal (m : Move) (b : Board) : Bool :=
  let rc := m.origin b
  (b.get rc.1 rc.2).elim false Entry.is_empty

/-- Move::iter as a list of yielded items. -/
def Move.vector (m : Move) (b : Board) : List (Nat × Nat × Entry) :=
  let rc := m.origin b
  moveVectorFuel b m.side b.size rc.1 rc.2

/-- Move::target: iter(b).take_while(empty).last. -/
def Move.target (m : Move) (b : Board) : Option (Nat × Nat) :=
  (((m.vector b).takeWhile fun x => x.2.2.is_empty).getLast?).map fun x => (x.1, x.2.1)

/-- Move::annotated. -/
def Move.annotated (m : Move) (b : Board) : Option LegalMove :=
  (m.target b).map fun rc =>
    { base := m, row := rc.1, col := rc.2, is_winning := b.is_winning rc.1 rc.2 }

/-- Move::succ. pos.wrapping_add(1) never wraps: the iteration starts at 0
and stays below the board size. -/
def Move.succ (m : Move) (b : Board) : Option Move :=
  let pos := m.pos + 1
  if pos < b.size then some { side := m.side, pos := pos }
  else (m.side.succ).map fun side => { side := side, pos := 0 }

/-- Ordinal position of a side in the successor chain. -/
def sideIdx : Side → Nat
  | .North => 0
  | .East => 1
  | .South => 2
  | .West => 3

/-- The chain of Move values visited by LegalMovesIter, starting from a
given base: each step is Move::succ. -/
def moveChain (b : Board) (m : Move) : List Move :=
  m ::
    match h : m.succ b with
    | none => []
    | some m2 => moveChain b m2
termination_by (4 - sideIdx m.side) * (b.size + 1) + (b.size - m.pos)
decreasing_by
  unfold Move.succ at h
  by_cases hp : m.pos + 1 < b.size
  · simp only [hp, if_pos] at h
    cases h
    dsimp only
    omega
  · simp only [hp, if_neg, not_false_iff] at h
    cases hs : m.side <;> simp [hs, Side.succ] at h <;> cases h <;>
      simp [sideIdx, hs] <;> omega

/-- The list yielded by Board::legal_moves_iter: the successor chain from
Move::new(North, 0), filtered through Move::annotated. -/
def Board.legalMovesList (b : Board) : List LegalMove :=
  (moveChain b { side := .North, pos := 0 }).filterMap fun m => m.annotated b

/-- Board::make_legal_move, returning the resulting state and board. The
source's debug_assert (state == Ongoing) has no release-mode effect and is
not modelled; theorem c5 carries it as a hypothesis. -/
def Board.make_legal_move (b : Board) (m : LegalMove) : GameState × Board :=
  let active := b.active
  let b1 := b.set m.row m.col active
  let b2 :=
    if m.is_winning then { b1 with state := GameState.Won }
    else if b1.nlegal = 0 then { b1 with state := GameState.Drawn }
    else { b1 with active := active.flip }
  (b2.state, b2)

/-- Board::make_move. -/
def Board.make_move (b : Board) (m : Move) : Except Error GameState × Board :=
  match m.annotated b with
  | some lm =>
    let r := b.make_legal_move lm
    (.ok r.1, r.2)
  | none => (.error (.IllegalMove m), b)

/-! ## MCTS search (src/player/mcts.rs, src/player/mod.rs)

Randomness is modelled by an oracle: a stream of Nat draws (gen_range,
taken mod the requested bound) and a stream of rational draws
(beta_sample values), consumed through an explicit counter. Every
property proved below holds for every oracle. f64 scores are modelled as
rationals: search scores are dyadic sums, on which f64 arithmetic is
exact, and sampled values enter only through order comparisons. -/

/-- Certain (src/player/mcts.rs). -/
structure Certain where
  depth : Nat
  index : Nat
deriving DecidableEq

/-- Certain::new then Certain::parent. -/
def Certain.parent (c : Certain) (index : Nat) : Certain :=
  { depth := c.depth + 1, index := index }

/-- Node (src/player/mcts.rs); the Probabilistic payload (score, nplay,
children) is inlined into the constructor. -/
inductive Node where
  | Unvisited : Node
  | Probabilistic : ℚ → ℚ → List Node → Node
  | CertainLoss : Certain → Node
  | CertainWin : Certain → Node
  | CertainDraw : Certain → Node

/-- Jeffreys prior constant. -/
def PRIOR : ℚ := 1 / 2

/-- The random oracle: nats feeds gen_range, qs feeds beta_sample. -/
structure Rng where
  nats : Nat → Nat
  qs : Nat → ℚ

/-- Node::score; panics (None) on Unvisited and Probabilistic. -/
def Node.scoreVal : Node → Option ℚ
  | .CertainLoss _ => some 1
  | .CertainWin _ => some 0
  | .CertainDraw _ => some (1 / 2)
  | _ => none

/-- Node::is_certain. -/
def Node.is_certain : Node → Bool
  | .Unvisited => false
  | .Probabilistic _ _ _ => false
  | .CertainLoss _ => true
  | .CertainWin _ => true
  | .CertainDraw _ => true

/-- Node::rank_ordinal. -/
def Node.rank_ordinal : Node → Nat
  | .Unvisited => 2
  | .Probabilistic _ _ _ => 2
  | .CertainLoss _ => 3
  | .CertainWin _ => 0
  | .CertainDraw _ => 1

/-- Node::rank_discriminator. -/
def Node.rank_discriminator : Node → Int
  | .Unvisited => 0
  | .Probabilistic _ _ _ => 0
  | .CertainLoss c => -(c.depth : Int)
  | .CertainWin c => (c.depth : Int)
  | .CertainDraw c => (c.depth : Int)

/-- Node::expected_score. -/
def Node.expected_score : Node → ℚ
  | .Unvisited => 1 / 2
  | .Probabilistic score nplay _ => score / nplay
  | .CertainLoss _ => 1
  | .CertainWin _ => 0
  | .CertainDraw _ => 1 / 2

/-- beta_sample: the source draws from a Beta posterior; the value is
modelled as the next oracle draw (its distribution is irrelevant to the
properties proved here, which hold for every oracle stream). -/
def betaSample (r : Rng) (k : Nat) : ℚ × Nat := (r.qs k, k + 1)

/-- Node::expected_score_sample. -/
def Node.expected_score_sample (r : Rng) (k : Nat) : Node → ℚ × Nat
  | .Unvisited => betaSample r k
  | .Probabilistic _ _ _ => betaSample r k
  | n => (n.expected_score, k)

/-- Node::rank_key. -/
def Node.rank_key (r : Rng) (k : Nat) (n : Node) : (Nat × ℚ × Int) × Nat :=
  let s := n.expected_score_sample r k
  ((n.rank_ordinal, s.1, n.rank_discriminator), s.2)

/-- Strict lexicographic order on rank keys: the order used by the
source's tuple partial_cmp on (usize, f64, isize). -/
def KeyLt (a b : Nat × ℚ × Int) : Prop :=
  a.1 < b.1 ∨ (a.1 = b.1 ∧ (a.2.1 < b.2.1 ∨ (a.2.1 = b.2.1 ∧ a.2.2 < b.2.2)))

instance (a b : Nat × ℚ × Int) : Decidable (KeyLt a b) := by
  unfold KeyLt; infer_instance

/-- The rank keys of a children array, with their indices and nodes, with
the oracle counter threaded left to right (the order in which max_by
consumes the mapped iterator). -/
def rankChildren (r : Rng) : Nat → Nat → List Node → List ((Nat × ℚ × Int) × Nat × Node) × Nat
  | k, _, [] => ([], k)
  | k, i, n :: rest =>
    let kk := n.rank_key r k
    let res := rankChildren r kk.2 (i + 1) rest
    ((kk.1, i, n) :: res.1, res.2)

/-- The fold of Iterator::max_by: keep the accumulator only when it is
strictly greater, so ties go to the later element. -/
def maxGo (acc : (Nat × ℚ × Int) × Nat × Node) :
    List ((Nat × ℚ × Int) × Nat × Node) → (Nat × ℚ × Int) × Nat × Node
  | [] => acc
  | x :: rest => maxGo (if KeyLt x.1 acc.1 then acc else x) rest

/-- Iterator::max_by over keyed children (last maximal element). -/
def maxByLast : List ((Nat × ℚ × Int) × Nat × Node) → Option ((Nat × ℚ × Int) × Nat × Node)
  | [] => none
  | x :: rest => some (maxGo x rest)

/-- Node::choose_unvisited_first's loop: reservoir sampling over the legal
moves, short-circuited by any immediately winning move. State: running
index, count n, current reservoir pick, oracle counter. -/
def cufGo (r : Rng) : List LegalMove → Nat → Nat → Option (Nat × LegalMove) → Nat →
    Nat × Option (Nat × LegalMove) × Nat
  | [], _, n, acc, k => (n, acc, k)
  | m1 :: rest, i1, n, acc, k =>
    let n1 := n + 1
    if m1.is_winning then (n1, some (i1, m1), k)
    else
      let acc1 := if r.nats k % n1 = 0 then some (i1, m1) else acc
      cufGo r rest (i1 + 1) n1 acc1 (k + 1)

/-- Node::choose_unvisited_first; None models the unwrap panic on a board
with no legal moves. -/
def chooseUnvisitedFirst (r : Rng) (k : Nat) (b : Board) : Option (Nat × Nat × LegalMove × Nat) :=
  match cufGo r b.legalMovesList 0 0 none k with
  | (n, some (i, m), k1) => some (n, i, m, k1)
  | (_, none, _) => none

/-- choose_winning_or_random's loop over the remaining iterator
(src/player/mod.rs): i is the enumerate index, m the reservoir pick. -/
def cworGo (r : Rng) : List LegalMove → Nat → LegalMove → Nat → LegalMove × Nat
  | [], _, m, k => (m, k)
  | m1 :: rest, i, m, k =>
    if m1.is_winning then (m1, k)
    else cworGo r rest (i + 1) (if r.nats k % (i + 2) = 0 then m1 else m) (k + 1)

/-- choose_winning_or_random (src/player/mod.rs); None models the unwrap
panic when no legal move exists. -/
def chooseWinningOrRandom (r : Rng) (k : Nat) (b : Board) : Option (LegalMove × Nat) :=
  match b.legalMovesList with
  | [] => none
  | m :: rest => if m.is_winning then some (m, k) else cworGo r rest 0 m k

/-- Node::choose_unvisited_rest with the running score made explicit
(the source initializes it to 1.0); fuel bounds the number of plies,
None models a playout that fails or does not finish within fuel. -/
def chooseUnvisitedRestGo (r : Rng) : Nat → Nat → Board → ℚ → Option (ℚ × Nat)
  | 0, _, _, _ => none
  | fuel + 1, k, b, score =>
    match chooseWinningOrRandom r k b with
    | none => none
    | some (m, k1) =>
      let sb := b.make_legal_move m
      match sb.1 with
      | .Won => some (score, k1)
      | .Drawn => some (1 / 2, k1)
      | .Ongoing => chooseUnvisitedRestGo r fuel k1 sb.2 (1 - score)

/-- Node::choose_unvisited_rest. -/
def chooseUnvisitedRest (r : Rng) (fuel k : Nat) (b : Board) : Option (ℚ × Nat) :=
  chooseUnvisitedRestGo r fuel k b 1

/-- Node::explore (together with Node::explore_unvisted and
Probabilistic::explore, whose bodies are inlined at their single call
sites). Returns the score, the possibly replaced node (the source
mutates self in place), and the advanced oracle counter; None models a
panic or fuel exhaustion. Fuel bounds the depth of the descent and the
playout length. -/
def Node.exploreFuel (r : Rng) : Nat → Nat → Board → Node → Option (ℚ × Node × Nat)
  | 0, _, _, _ => none
  | fuel + 1, k, b, Node.Unvisited =>
    match chooseUnvisitedFirst r k b with
    | none => none
    | some (n, i, m, k1) =>
      let sb := b.make_legal_move m
      match sb.1 with
      | .Won => some (0, .CertainWin { depth := 1, index := i }, k1)
      | .Drawn => some (1 / 2, .CertainDraw { depth := 1, index := i }, k1)
      | .Ongoing =>
        match chooseUnvisitedRest r fuel k1 sb.2 with
        | none => none
        | some (score, k2) =>
          some (score,
            .Probabilistic (PRIOR + score) (PRIOR + PRIOR + 1) (List.replicate n .Unvisited), k2)
  | fuel + 1, k, b, Node.Probabilistic score nplay children =>
    let rk := rankChildren r k 0 children
    match maxByLast rk.1 with
    | none => none
    | some (_, i, cnode) =>
      match cnode with
      | .CertainLoss c => some (0, .CertainWin (c.parent i), rk.2)
      | .CertainWin c => some (1, .CertainLoss (c.parent i), rk.2)
      | .CertainDraw c => some (1 / 2, .CertainDraw (c.parent i), rk.2)
      | _ =>
        match b.legalMovesList[i]? with
        | none => none
        | some m =>
          let sb := b.make_legal_move m
          match Node.exploreFuel r fuel rk.2 sb.2 cnode with
          | none => none
          | some (cs, cnode1, k2) =>
            let s1 := 1 - cs
            some (s1, .Probabilistic (score + s1) (nplay + 1) (children.set i cnode1), k2)
  | _ + 1, k, _, Node.CertainLoss c => some (1, .CertainLoss c, k)
  | _ + 1, k, _, Node.CertainWin c => some (0, .CertainWin c, k)
  | _ + 1, k, _, Node.CertainDraw c => some (1 / 2, .CertainDraw c, k)

/-! ## Specification-side definitions and invariants -/

/-- All (side, offset) descriptors with offset < size, in the fixed
North, East, South, West order with increasing offset per side. -/
def Board.allMoves (b : Board) : List Move :=
  ((List.range b.size).map fun p => { side := Side.North, pos := p }) ++
    ((List.range b.size).map fun p => { side := Side.East, pos := p }) ++
    ((List.range b.size).map fun p => { side := Side.South, pos := p }) ++
    ((List.range b.size).map fun p => { side := Side.West, pos := p })

/-- Whether a move's origin edge cell is Empty. -/
def Move.originEmpty (m : Move) (b : Board) : Bool :=
  let rc := m.origin b
  b.get_unchecked rc.1 rc.2 == .Empty

/-- The number of (side, offset) pairs whose edge cell is Empty. -/
def Board.edgeEmptyCount (b : Board) : Nat :=
  b.allMoves.countP (fun m : Move => m.originEmpty b)

/-- The number of Empty cells. -/
def Board.emptyCells (b : Board) : Nat :=
  b.data.countP fun e => e == .Empty

/-- The representation invariant every board built by the program
satisfies: the backing store has size*size entries, the active entry is
a player, and nlegal counts the Empty edge cells. -/
def Board.Inv (b : Board) : Prop :=
  b.data.length = b.size * b.size ∧ (b.active = .Player1 ∨ b.active = .Player2) ∧
    b.nlegal = b.edgeEmptyCount

/-- Boards reachable from Board::new or Board::generate (whose Block
placements are the genStep steps) by make_move, make_legal_move and pass
calls, with make_legal_move fed a proof resolved against the current
board, as the program does. -/
inductive Reachable : Board → Prop where
  | new : ∀ size, Reachable (Board.new size)
  | genStep : ∀ b row col, Reachable b → row < b.size → col < b.size →
      b.get row col = some .Empty → Reachable (b.set row col .Block)
  | move : ∀ (b : Board) (m : Move), Reachable b → Reachable (b.make_move m).2
  | legal : ∀ (b : Board) (m : Move) (lm : LegalMove), Reachable b → m.annotated b = some lm →
      Reachable (b.make_legal_move lm).2
  | pass : ∀ b, Reachable b → Reachable b.pass

/-- A run of four or more consecutive cells equal to e somewhere in a
line of entries (a window of four consecutive matches exists). -/
def hasFourRun (l : List Entry) (e : Entry) : Bool :=
  (List.range l.length).any fun i => (l.drop i).take 4 = [e, e, e, e]

/-- The entries along a list of cells. -/
def Board.lineEntries (b : Board) (cells : List (Nat × Nat)) : List Entry :=
  cells.map fun rc => b.get_unchecked rc.1 rc.2

/-- The run-counting loop over a precomputed list of match bits. -/
def boolGo : Nat → List Bool → Bool
  | _, [] => false
  | n, x :: rest =>
    if x then (if n + 1 ≥ 4 then true else boolGo (n + 1) rest) else boolGo 0 rest


/-- A cell that the push walk may pass through: in range and Empty. -/
def cellOpen (b : Board) (p : Nat × Nat) : Prop :=
  p.1 < b.size ∧ p.2 < b.size ∧ b.get_unchecked p.1 p.2 = .Empty

instance (b : Board) (p : Nat × Nat) : Decidable (cellOpen b p) := by
  unfold cellOpen
  infer_instance

/-- The target computation from an arbitrary start position. -/
def walkTarget (b : Board) (side : Side) (fuel row col : Nat) : Option (Nat × Nat) :=
  (((moveVectorFuel b side fuel row col).takeWhile fun x => x.2.2.is_empty).getLast?).map
    fun x => (x.1, x.2.1)

/-- Steps remaining before the walk must leave the grid. -/
def walkPot (b : Board) (side : Side) (row col : Nat) : Nat :=
  match side with
  | .North => b.size - row
  | .East => col + 1
  | .South => row + 1
  | .West => b.size - col


/-! ## Basic lemmas about entries, get and set -/

theorem Entry.is_empty_iff (e : Entry) : e.is_empty = true ↔ e = .Empty := by
  cases e <;> simp [Entry.is_empty]

theorem Entry.flip_ne_empty (e : Entry) (h : e = .Player1 ∨ e = .Player2) :
    e.flip = .Player1 ∨ e.flip = .Player2 := by
  rcases h with h | h <;> subst h <;> simp [Entry.flip]

theorem Board.set_size (b : Board) (row col : Nat) (e : Entry) :
    (b.set row col e).size = b.size := by
  simp only [Board.set]
  split <;> rfl

theorem Board.set_active (b : Board) (row col : Nat) (e : Entry) :
    (b.set row col e).active = b.active := by
  simp only [Board.set]
  split <;> rfl

theorem Board.set_state (b : Board) (row col : Nat) (e : Entry) :
    (b.set row col e).state = b.state := by
  simp only [Board.set]
  split <;> rfl

theorem Board.set_data_of_lt (b : Board) (row col : Nat) (e : Entry)
    (hi : b.index_for row col < b.data.length) :
    (b.set row col e).data = b.data.set (b.index_for row col) e := by
  simp only [Board.set]
  rw [List.getElem?_eq_getElem hi]

theorem Board.set_data_len (b : Board) (row col : Nat) (e : Entry) :
    (b.set row col e).data.length = b.data.length := by
  simp only [Board.set]
  split <;> simp

theorem Board.index_inj (b : Board) (r c r' c' : Nat) (hc : c < b.size) (hc' : c' < b.size) :
    b.index_for r c = b.index_for r' c' ↔ r = r' ∧ c = c' := by
  unfold Board.index_for
  constructor
  · intro h
    have hs : 0 < b.size := Nat.lt_of_le_of_lt (Nat.zero_le c) hc
    have hcc : c = c' := by
      have h1 : (b.size * r + c) % b.size = (b.size * r' + c') % b.size := by
        rw [Nat.mul_comm b.size r, Nat.mul_comm b.size r', h]
      rwa [Nat.mul_add_mod, Nat.mul_add_mod, Nat.mod_eq_of_lt hc, Nat.mod_eq_of_lt hc'] at h1
    subst hcc
    have hrr : r = r' := by
      have h2 : r * b.size = r' * b.size := by omega
      exact Nat.eq_of_mul_eq_mul_right hs h2
    exact ⟨hrr, rfl⟩
  · rintro ⟨rfl, rfl⟩; rfl

theorem Board.get_set_same (b : Board) (row col : Nat) (e : Entry)
    (hi : b.index_for row col < b.data.length) :
    (b.set row col e).get row col = some e := by
  unfold Board.get
  rw [Board.set_data_of_lt b row col e hi]
  have : (b.set row col e).index_for row col = b.index_for row col := by
    unfold Board.index_for; rw [Board.set_size]
  rw [this, List.getElem?_set]
  simp [hi]

theorem Board.get_set_ne (b : Board) (row col r c : Nat) (e : Entry)
    (h : b.index_for r c ≠ b.index_for row col) :
    (b.set row col e).get r c = b.get r c := by
  unfold Board.get
  have hidx : (b.set row col e).index_for r c = b.index_for r c := by
    unfold Board.index_for; rw [Board.set_size]
  rw [hidx]
  simp only [Board.set]
  cases hg : b.data[b.index_for row col]? with
  | none => rfl
  | some v =>
    simp only
    rw [List.getElem?_set]
    simp [Ne.symm h]

theorem Board.get_unchecked_set_ne (b : Board) (row col r c : Nat) (e : Entry)
    (h : b.index_for r c ≠ b.index_for row col) :
    (b.set row col e).get_unchecked r c = b.get_unchecked r c := by
  unfold Board.get_unchecked
  have hidx : (b.set row col e).index_for r c = b.index_for r c := by
    unfold Board.index_for; rw [Board.set_size]
  rw [hidx]
  simp only [Board.set]
  cases hg : b.data[b.index_for row col]? with
  | none => rfl
  | some v =>
    simp only
    rw [List.getD, List.getD, List.get?_eq_getElem?, List.get?_eq_getElem?, List.getElem?_set]
    simp [Ne.symm h]

theorem Board.get_unchecked_set_same (b : Board) (row col : Nat) (e : Entry)
    (hi : b.index_for row col < b.data.length) :
    (b.set row col e).get_unchecked row col = e := by
  unfold Board.get_unchecked
  have hidx : (b.set row col e).index_for row col = b.index_for row col := by
    unfold Board.index_for; rw [Board.set_size]
  rw [hidx, Board.set_data_of_lt b row col e hi, List.getD, List.get?_eq_getElem?,
    List.getElem?_set]
  simp [hi]

theorem Board.get_eq_some_unchecked (b : Board) (row col : Nat)
    (hi : b.index_for row col < b.data.length) :
    b.get row col = some (b.get_unchecked row col) := by
  unfold Board.get Board.get_unchecked
  rw [List.getElem?_eq_getElem hi, List.getD, List.get?_eq_getElem?, List.getElem?_eq_getElem hi]
  rfl

theorem Board.pass_fields (b : Board) :
    b.pass.size = b.size ∧ b.pass.nlegal = b.nlegal ∧ b.pass.state = b.state ∧
      b.pass.data = b.data ∧ b.pass.active = b.active.flip := by
  simp [Board.pass]

/-! ## Move vector and target lemmas -/

theorem moveVectorFuel_mem (b : Board) (side : Side) :
    ∀ (fuel row col : Nat) (x : Nat × Nat × Entry), x ∈ moveVectorFuel b side fuel row col →
      x.1 < b.size ∧ x.2.1 < b.size ∧ x.2.2 = b.get_unchecked x.1 x.2.1 := by
  intro fuel
  induction fuel with
  | zero => intro row col x hx; simp [moveVectorFuel] at hx
  | succ n ih =>
    intro row col x hx
    rw [moveVectorFuel] at hx
    by_cases hr : b.size ≤ row ∨ b.size ≤ col
    · simp [hr] at hx
    · simp only [hr, if_false] at hx
      rcases List.mem_cons.mp hx with rfl | hx
      · dsimp
        exact ⟨by omega, by omega, rfl⟩
      · exact ih _ _ x hx

theorem target_some_props (b : Board) (m : Move) (r c : Nat) (h : m.target b = some (r, c)) :
    r < b.size ∧ c < b.size ∧ b.get_unchecked r c = .Empty := by
  unfold Move.target at h
  cases hl : ((m.vector b).takeWhile fun x => x.2.2.is_empty).getLast? with
  | none => rw [hl, Option.map_none'] at h; exact absurd h (by simp)
  | some x =>
    rw [hl, Option.map_some'] at h
    have hx1 : x ∈ (m.vector b).takeWhile fun y => y.2.2.is_empty := by
      obtain ⟨ys, hys⟩ := List.getLast?_eq_some_iff.mp hl
      rw [hys]; simp
    have hxv : x ∈ m.vector b := List.Sublist.mem hx1 (List.takeWhile_sublist _)
    have hxe : x.2.2.is_empty = true :=
      @List.mem_takeWhile_imp _ (fun y => y.2.2.is_empty) (m.vector b) x hx1
    have hm := moveVectorFuel_mem b m.side b.size _ _ x hxv
    cases h
    refine ⟨hm.1, hm.2.1, ?_⟩
    rw [← hm.2.2]
    exact (Entry.is_empty_iff _).mp hxe

theorem target_none_iff (b : Board) (m : Move) :
    m.target b = none ↔
      ¬((m.origin b).1 < b.size ∧ (m.origin b).2 < b.size ∧
        b.get_unchecked (m.origin b).1 (m.origin b).2 = .Empty) := by
  unfold Move.target Move.vector
  rcases hsz : b.size with _ | n
  · simp [moveVectorFuel]
  · rw [moveVectorFuel, hsz]
    by_cases hr : n + 1 ≤ (m.origin b).1 ∨ n + 1 ≤ (m.origin b).2
    · rw [if_pos hr]
      simp only [List.takeWhile_nil, List.getLast?_nil, Option.map_none']
      constructor
      · intro _; omega
      · intro _; trivial
    · rw [if_neg hr]
      rw [List.takeWhile_cons]
      by_cases he : (b.get_unchecked (m.origin b).1 (m.origin b).2).is_empty = true
      · rw [if_pos he]
        constructor
        · intro hcontra
          rw [Option.map_eq_none'] at hcontra
          rw [List.getLast?_eq_none_iff] at hcontra
          exact absurd hcontra (by simp)
        · intro hcontra
          exfalso
          apply hcontra
          refine ⟨by omega, by omega, (Entry.is_empty_iff _).mp he⟩
      · rw [if_neg he]
        simp only [List.takeWhile_nil, List.getLast?_nil, Option.map_none', true_iff]
        intro hcc
        exact he ((Entry.is_empty_iff _).mpr hcc.2.2)

theorem annotated_none_iff (b : Board) (m : Move) :
    m.annotated b = none ↔ m.target b = none := by
  unfold Move.annotated
  rw [Option.map_eq_none']

theorem annotated_some_props (b : Board) (m : Move) (lm : LegalMove)
    (h : m.annotated b = some lm) :
    m.target b = some (lm.row, lm.col) ∧ lm.base = m ∧
      lm.is_winning = b.is_winning lm.row lm.col := by
  unfold Move.annotated at h
  cases ht : m.target b with
  | none => rw [ht, Option.map_none'] at h; exact absurd h (by simp)
  | some rc =>
    rw [ht, Option.map_some'] at h
    cases h
    exact ⟨rfl, rfl, rfl⟩

theorem annotated_some_cell (b : Board) (m : Move) (lm : LegalMove)
    (h : m.annotated b = some lm) :
    lm.row < b.size ∧ lm.col < b.size ∧ b.get_unchecked lm.row lm.col = .Empty := by
  have := (annotated_some_props b m lm h).1
  exact target_some_props b m lm.row lm.col this

/-! ## Legal-move enumeration lemmas -/

theorem moveChain_of_succ_none (b : Board) (m : Move) (h : m.succ b = none) :
    moveChain b m = [m] := by
  rw [moveChain]
  split
  · rfl
  · rename_i m2 heq
    rw [h] at heq
    cases heq

theorem moveChain_of_succ_some (b : Board) (m : Move) (m2 : Move) (h : m.succ b = some m2) :
    moveChain b m = m :: moveChain b m2 := by
  rw [moveChain]
  split
  · rename_i heq
    rw [h] at heq
    cases heq
  · rename_i m3 heq
    rw [h] at heq
    cases heq
    rfl

/-- The within-one-side segment of the successor chain. -/
theorem moveChain_seg (b : Board) (s : Side) :
    ∀ (k p : Nat), p < b.size → b.size - p = k + 1 →
      moveChain b { side := s, pos := p } =
        ((List.range (k + 1)).map fun j => { side := s, pos := p + j }) ++
          (match s.succ with | none => [] | some s2 => moveChain b { side := s2, pos := 0 }) := by
  intro k
  induction k with
  | zero =>
    intro p hp hk
    have hnot : ¬ p + 1 < b.size := by omega
    have hsucc : Move.succ { side := s, pos := p } b =
        (s.succ).map fun s2 => { side := s2, pos := 0 } := by
      unfold Move.succ
      simp [hnot]
    cases hs : s.succ with
    | none =>
      rw [moveChain_of_succ_none b _ (by rw [hsucc, hs]; rfl)]
      simp [List.range_succ]
    | some s2 =>
      rw [moveChain_of_succ_some b _ { side := s2, pos := 0 } (by rw [hsucc, hs]; rfl)]
      simp [List.range_succ]
  | succ k ih =>
    intro p hp hk
    have hlt : p + 1 < b.size := by omega
    have hsucc : Move.succ { side := s, pos := p } b = some { side := s, pos := p + 1 } := by
      unfold Move.succ
      simp [hlt]
    rw [moveChain_of_succ_some b _ _ hsucc, ih (p + 1) hlt (by omega)]
    conv_rhs => rw [List.range_succ_eq_map]
    simp only [List.map_cons, List.map_map, List.cons_append, Nat.add_zero]
    congr 1
    congr 1
    apply List.map_congr_left
    intro j _
    simp only [Function.comp_apply, Move.mk.injEq, true_and]
    omega

theorem moveChain_eq_allMoves (b : Board) (hsz : 0 < b.size) :
    moveChain b { side := .North, pos := 0 } = b.allMoves := by
  obtain ⟨k, hk⟩ : ∃ k, b.size = k + 1 := ⟨b.size - 1, by omega⟩
  have hseg : ∀ s : Side, moveChain b { side := s, pos := 0 } =
      ((List.range b.size).map fun j => { side := s, pos := j }) ++
        (match s.succ with | none => [] | some s2 => moveChain b { side := s2, pos := 0 }) := by
    intro s
    have := moveChain_seg b s k 0 hsz (by omega)
    simpa [hk] using this
  rw [hseg .North]
  simp only [Side.succ]
  rw [hseg .East]
  simp only [Side.succ]
  rw [hseg .South]
  simp only [Side.succ]
  rw [hseg .West]
  simp only [Side.succ]
  unfold Board.allMoves
  simp [List.append_assoc]

theorem moveChain_size_zero (b : Board) (hsz : b.size = 0) :
    moveChain b { side := .North, pos := 0 } =
      [{ side := .North, pos := 0 }, { side := .East, pos := 0 },
        { side := .South, pos := 0 }, { side := .West, pos := 0 }] := by
  have hs : ∀ (s : Side) (s2 : Side), s.succ = some s2 →
      Move.succ { side := s, pos := 0 } b = some { side := s2, pos := 0 } := by
    intro s s2 h
    unfold Move.succ
    simp [hsz, h]
  have hw : Move.succ { side := Side.West, pos := 0 } b = none := by
    unfold Move.succ
    simp [hsz, Side.succ]
  rw [moveChain_of_succ_some b _ _ (hs .North .East rfl),
    moveChain_of_succ_some b _ _ (hs .East .South rfl),
    moveChain_of_succ_some b _ _ (hs .South .West rfl),
    moveChain_of_succ_none b _ hw]

theorem annotated_size_zero (b : Board) (m : Move) (hsz : b.size = 0) :
    m.annotated b = none := by
  rw [annotated_none_iff, target_none_iff]
  intro h
  rw [hsz] at h
  omega

theorem legalMovesList_eq_filterMap (b : Board) :
    b.legalMovesList = b.allMoves.filterMap fun m => m.annotated b := by
  unfold Board.legalMovesList
  rcases Nat.eq_zero_or_pos b.size with hsz | hsz
  · rw [moveChain_size_zero b hsz]
    have hall : b.allMoves = [] := by
      unfold Board.allMoves
      simp [hsz]
    rw [hall]
    simp [List.filterMap_cons, annotated_size_zero b _ hsz]
  · rw [moveChain_eq_allMoves b hsz]

/-! ## Counting lemmas -/

theorem length_filterMap_eq_countP (f : α → Option β) (l : List α) :
    (l.filterMap f).length = l.countP fun a => (f a).isSome := by
  induction l with
  | nil => rfl
  | cons a t ih =>
    cases h : f a <;> simp [List.filterMap_cons, h, List.countP_cons, ih]

theorem countP_range_flip (n c : Nat) (p q : Nat → Bool) (hc : c < n)
    (hne : ∀ x, x < n → x ≠ c → p x = q x) (hpc : p c = true) (hqc : q c = false) :
    (List.range n).countP q + 1 = (List.range n).countP p := by
  induction n with
  | zero => omega
  | succ k ih =>
    rw [List.range_succ, List.countP_append, List.countP_append]
    by_cases hck : c = k
    · subst hck
      have hall : (List.range c).countP q = (List.range c).countP p := by
        apply List.countP_congr
        intro x hx
        have hx2 := List.mem_range.mp hx
        rw [hne x (by omega) (by omega)]
      simp [hall, hpc, hqc, List.countP_cons]
    · have hlt : c < k := by omega
      have hk2 : p k = q k := hne k (by omega) (by omega)
      rw [← ih hlt (fun x hx hxc => hne x (by omega) hxc)]
      simp [List.countP_cons, hk2]
      omega

theorem countP_set_flip (l : List Entry) (i : Nat) (y : Entry) (p : Entry → Bool)
    (hi : i < l.length) (hpi : p (l.getD i .Empty) = true) (hqy : p y = false) :
    (l.set i y).countP p + 1 = l.countP p := by
  induction l generalizing i with
  | nil => simp at hi
  | cons a t ih =>
    cases i with
    | zero =>
      simp only [List.getD, List.get?_eq_getElem?] at hpi
      simp only [List.getElem?_cons_zero, Option.getD_some] at hpi
      simp [List.set, List.countP_cons, hpi, hqy]
    | succ j =>
      have hj : j < t.length := by simpa using hi
      have hpi2 : p (t.getD j .Empty) = true := by
        simpa [List.getD, List.get?_eq_getElem?] using hpi
      simp only [List.set, List.countP_cons]
      rw [← ih j hj hpi2]
      omega

theorem allMoves_pos_lt (b : Board) (m : Move) (h : m ∈ b.allMoves) : m.pos < b.size := by
  unfold Board.allMoves at h
  simp only [List.mem_append, List.mem_map, List.mem_range] at h
  rcases h with ((⟨p, hp, rfl⟩ | ⟨p, hp, rfl⟩) | ⟨p, hp, rfl⟩) | ⟨p, hp, rfl⟩ <;> exact hp

theorem origin_in_range (b : Board) (m : Move) (hp : m.pos < b.size) :
    (m.origin b).1 < b.size ∧ (m.origin b).2 < b.size := by
  have hs : 0 < b.size := Nat.lt_of_le_of_lt (Nat.zero_le _) hp
  cases hside : m.side <;> simp [Move.origin, hside] <;> omega

theorem annotated_isSome_eq_originEmpty (b : Board) (m : Move) (hp : m.pos < b.size) :
    (m.annotated b).isSome = m.originEmpty b := by
  obtain ⟨h1, h2⟩ := origin_in_range b m hp
  cases he : m.originEmpty b
  · have : m.annotated b = none := by
      rw [annotated_none_iff, target_none_iff]
      intro hcc
      simp only [Move.originEmpty] at he
      rw [hcc.2.2] at he
      simp at he
    rw [this]
    rfl
  · cases ha : m.annotated b with
    | some lm => rfl
    | none =>
      exfalso
      rw [annotated_none_iff, target_none_iff] at ha
      apply ha
      refine ⟨h1, h2, ?_⟩
      simp only [Move.originEmpty] at he
      exact eq_of_beq he

theorem legalMovesList_length (b : Board) : b.legalMovesList.length = b.edgeEmptyCount := by
  rw [legalMovesList_eq_filterMap, length_filterMap_eq_countP]
  unfold Board.edgeEmptyCount
  apply List.countP_congr
  intro m hm
  rw [annotated_isSome_eq_originEmpty b m (allMoves_pos_lt b m hm)]

theorem index_lt_of_lt (b : Board) (r c : Nat) (hr : r < b.size) (hc : c < b.size) :
    b.index_for r c < b.size * b.size := by
  unfold Board.index_for
  calc r * b.size + c < r * b.size + b.size := by omega
    _ = (r + 1) * b.size := by ring
    _ ≤ b.size * b.size := Nat.mul_le_mul_right _ (by omega)

theorem Board.set_nlegal_empty (b : Board) (r c : Nat) (e : Entry)
    (hi : b.index_for r c < b.data.length)
    (hemp : b.get_unchecked r c = .Empty) (hne : e ≠ .Empty) :
    (b.set r c e).nlegal = b.nlegal - (if r = 0 ∨ r = b.size - 1 then 1 else 0)
      - (if c = 0 ∨ c = b.size - 1 then 1 else 0) := by
  have hv : b.data[b.index_for r c]? = some .Empty := by
    rw [List.getElem?_eq_getElem hi]
    unfold Board.get_unchecked at hemp
    rw [List.getD, List.get?_eq_getElem?, List.getElem?_eq_getElem hi] at hemp
    simp only [Option.getD_some] at hemp
    rw [hemp]
  simp only [Board.set, hv]
  have hee : Entry.is_empty e = false := by
    cases e <;> simp [Entry.is_empty] at hne ⊢
  have hte : Entry.is_empty .Empty = true := rfl
  by_cases h1 : r = 0 ∨ r = b.size - 1 <;> by_cases h2 : c = 0 ∨ c = b.size - 1 <;>
    simp [h1, h2, hee, hte]

theorem Board.emptyCells_set (b : Board) (r c : Nat) (e : Entry)
    (hi : b.index_for r c < b.data.length)
    (hemp : b.get_unchecked r c = .Empty) (hne : e ≠ .Empty) :
    (b.set r c e).emptyCells + 1 = b.emptyCells := by
  unfold Board.emptyCells
  rw [Board.set_data_of_lt b r c e hi]
  apply countP_set_flip
  · exact hi
  · unfold Board.get_unchecked at hemp
    rw [List.getD] at hemp
    rw [List.getD]
    rw [hemp]
    rfl
  · cases e <;> simp at hne ⊢

theorem index_ne_of_cell_ne (b : Board) (x y r c : Nat) (hy : y < b.size)
    (hc : c < b.size) (hne : ¬(x = r ∧ y = c)) :
    b.index_for x y ≠ b.index_for r c := by
  intro h
  exact hne ((Board.index_inj b x y r c hy hc).mp h)

theorem countP_congr_range (n : Nat) (f g : Nat → Bool) (h : ∀ p, p < n → f p = g p) :
    (List.range n).countP f = (List.range n).countP g := by
  apply List.countP_congr
  intro x hx
  rw [h x (List.mem_range.mp hx)]

/-- edgeEmptyCount split into the four per-side counts. -/
theorem edgeEmptyCount_eq (b : Board) :
    b.edgeEmptyCount =
      ((List.range b.size).countP fun p => b.get_unchecked 0 p == .Empty) +
        (((List.range b.size).countP fun p => b.get_unchecked p (b.size - 1) == .Empty) +
          (((List.range b.size).countP fun p => b.get_unchecked (b.size - 1) p == .Empty) +
            ((List.range b.size).countP fun p => b.get_unchecked p 0 == .Empty))) := by
  unfold Board.edgeEmptyCount Board.allMoves
  rw [List.countP_append, List.countP_append, List.countP_append,
    List.countP_map, List.countP_map, List.countP_map, List.countP_map]
  have h1 := countP_congr_range b.size
    ((fun m : Move => m.originEmpty b) ∘ fun p => { side := Side.North, pos := p })
    (fun p => b.get_unchecked 0 p == .Empty) (fun p _ => rfl)
  have h2 := countP_congr_range b.size
    ((fun m : Move => m.originEmpty b) ∘ fun p => { side := Side.East, pos := p })
    (fun p => b.get_unchecked p (b.size - 1) == .Empty) (fun p _ => rfl)
  have h3 := countP_congr_range b.size
    ((fun m : Move => m.originEmpty b) ∘ fun p => { side := Side.South, pos := p })
    (fun p => b.get_unchecked (b.size - 1) p == .Empty) (fun p _ => rfl)
  have h4 := countP_congr_range b.size
    ((fun m : Move => m.originEmpty b) ∘ fun p => { side := Side.West, pos := p })
    (fun p => b.get_unchecked p 0 == .Empty) (fun p _ => rfl)
  omega

/-- Writing a non-Empty entry over an Empty in-range cell lowers the
Empty-edge-cell count by one per incident edge row and column (size 1
boards, whose single cell belongs to all four edges, are excluded). -/
theorem edgeEmptyCount_set (b : Board) (r c : Nat) (e : Entry)
    (hwf : b.data.length = b.size * b.size) (hsz : b.size ≠ 1) (hr : r < b.size)
    (hc : c < b.size) (hemp : b.get_unchecked r c = .Empty) (hne : e ≠ .Empty) :
    (b.set r c e).edgeEmptyCount +
      ((if r = 0 ∨ r = b.size - 1 then 1 else 0) + (if c = 0 ∨ c = b.size - 1 then 1 else 0)) =
      b.edgeEmptyCount := by
  have hsz2 : 2 ≤ b.size := by omega
  have hilt : b.index_for r c < b.data.length := by
    rw [hwf]; exact index_lt_of_lt b r c hr hc
  have hnewrc : (b.set r c e).get_unchecked r c = e :=
    Board.get_unchecked_set_same b r c e hilt
  have hkeep : ∀ x y : Nat, y < b.size → ¬(x = r ∧ y = c) →
      (b.set r c e).get_unchecked x y = b.get_unchecked x y := fun x y hy hxy =>
    Board.get_unchecked_set_ne b r c x y e (index_ne_of_cell_ne b x y r c hy hc hxy)
  have henot : (e == Entry.Empty) = false := by
    cases e <;> simp_all
  rw [edgeEmptyCount_eq, edgeEmptyCount_eq, Board.set_size]
  have hN : ((List.range b.size).countP fun p => (b.set r c e).get_unchecked 0 p == .Empty) +
      (if r = 0 then 1 else 0) =
      ((List.range b.size).countP fun p => b.get_unchecked 0 p == .Empty) := by
    by_cases h0 : r = 0
    · subst h0
      rw [if_pos rfl]
      refine countP_range_flip b.size c _ _ hc (fun x hx hxc => ?_) ?_ ?_
      · rw [hkeep 0 x hx (fun h => hxc h.2)]
      · rw [hemp]; rfl
      · rw [hnewrc]; exact henot
    · rw [if_neg h0, Nat.add_zero]
      refine countP_congr_range _ _ _ fun p hp => ?_
      rw [hkeep 0 p hp (fun h => h0 h.1.symm)]
  have hS : ((List.range b.size).countP fun p =>
        (b.set r c e).get_unchecked (b.size - 1) p == .Empty) +
      (if r = b.size - 1 then 1 else 0) =
      ((List.range b.size).countP fun p => b.get_unchecked (b.size - 1) p == .Empty) := by
    by_cases h0 : r = b.size - 1
    · subst h0
      rw [if_pos rfl]
      refine countP_range_flip b.size c _ _ hc (fun x hx hxc => ?_) ?_ ?_
      · rw [hkeep (b.size - 1) x hx (fun h => hxc h.2)]
      · rw [hemp]; rfl
      · rw [hnewrc]; exact henot
    · rw [if_neg h0, Nat.add_zero]
      refine countP_congr_range _ _ _ fun p hp => ?_
      rw [hkeep (b.size - 1) p hp (fun h => h0 h.1.symm)]
  have hE : ((List.range b.size).countP fun p =>
        (b.set r c e).get_unchecked p (b.size - 1) == .Empty) +
      (if c = b.size - 1 then 1 else 0) =
      ((List.range b.size).countP fun p => b.get_unchecked p (b.size - 1) == .Empty) := by
    by_cases h0 : c = b.size - 1
    · subst h0
      rw [if_pos rfl]
      refine countP_range_flip b.size r _ _ hr (fun x hx hxc => ?_) ?_ ?_
      · rw [hkeep x (b.size - 1) (by omega) (fun h => hxc h.1)]
      · rw [hemp]; rfl
      · rw [hnewrc]; exact henot
    · rw [if_neg h0, Nat.add_zero]
      refine countP_congr_range _ _ _ fun p hp => ?_
      rw [hkeep p (b.size - 1) (by omega) (fun h => h0 h.2.symm)]
  have hW : ((List.range b.size).countP fun p =>
        (b.set r c e).get_unchecked p 0 == .Empty) +
      (if c = 0 then 1 else 0) =
      ((List.range b.size).countP fun p => b.get_unchecked p 0 == .Empty) := by
    by_cases h0 : c = 0
    · subst h0
      rw [if_pos rfl]
      refine countP_range_flip b.size r _ _ hr (fun x hx hxc => ?_) ?_ ?_
      · rw [hkeep x 0 (by omega) (fun h => hxc h.1)]
      · rw [hemp]; rfl
      · rw [hnewrc]; exact henot
    · rw [if_neg h0, Nat.add_zero]
      refine countP_congr_range _ _ _ fun p hp => ?_
      rw [hkeep p 0 (by omega) (fun h => h0 h.2.symm)]
  split_ifs at hN hS hE hW ⊢ <;> omega

/-! ## Invariant preservation -/

theorem Board.get_some_unchecked (b : Board) (r c : Nat) (v : Entry)
    (h : b.get r c = some v) : b.get_unchecked r c = v := by
  unfold Board.get at h
  unfold Board.get_unchecked
  rw [List.getD, List.get?_eq_getElem?, h]
  rfl

theorem new_get_unchecked (size r c : Nat) : (Board.new size).get_unchecked r c = .Empty := by
  unfold Board.new Board.get_unchecked
  rw [List.getD, List.get?_eq_getElem?]
  rcases htl : (List.replicate (size * size) Entry.Empty)[(Board.mk size .Player1 (size * 4)
      .Ongoing (List.replicate (size * size) .Empty)).index_for r c]? with _ | v
  · rfl
  · have := List.getElem?_mem htl
    rw [List.eq_of_mem_replicate this]
    rfl

theorem Inv_new (size : Nat) : (Board.new size).Inv := by
  refine ⟨by simp [Board.new], Or.inl rfl, ?_⟩
  rw [edgeEmptyCount_eq]
  have hall : ∀ f : Nat → Nat × Nat,
      ((List.range (Board.new size).size).countP fun p =>
        (Board.new size).get_unchecked (f p).1 (f p).2 == .Empty) = size := by
    intro f
    have : ∀ p, ((Board.new size).get_unchecked (f p).1 (f p).2 == Entry.Empty) = true := by
      intro p
      rw [new_get_unchecked]
      rfl
    calc ((List.range (Board.new size).size).countP fun p =>
          (Board.new size).get_unchecked (f p).1 (f p).2 == .Empty)
        = ((List.range (Board.new size).size).countP fun _ => true) := by
          apply List.countP_congr
          intro x _
          rw [this x]
      _ = size := by simp [Board.new]
  have h1 := hall fun p => (0, p)
  have h2 := hall fun p => (p, (Board.new size).size - 1)
  have h3 := hall fun p => ((Board.new size).size - 1, p)
  have h4 := hall fun p => (p, 0)
  simp only at h1 h2 h3 h4
  rw [h1, h2, h3, h4]
  show size * 4 = size + (size + (size + size))
  omega

theorem Inv_set (b : Board) (r c : Nat) (e : Entry) (hsz : b.size ≠ 1) (hInv : b.Inv)
    (hr : r < b.size) (hc : c < b.size) (hemp : b.get_unchecked r c = .Empty)
    (hne : e ≠ .Empty) : (b.set r c e).Inv := by
  obtain ⟨hwf, hact, hcount⟩ := hInv
  have hilt : b.index_for r c < b.data.length := by
    rw [hwf]; exact index_lt_of_lt b r c hr hc
  refine ⟨?_, ?_, ?_⟩
  · rw [Board.set_data_len, Board.set_size, hwf]
  · rw [Board.set_active]; exact hact
  · rw [Board.set_nlegal_empty b r c e hilt hemp hne, hcount]
    have := edgeEmptyCount_set b r c e hwf hsz hr hc hemp hne
    omega

theorem make_legal_move_size (b : Board) (lm : LegalMove) :
    (b.make_legal_move lm).2.size = b.size := by
  simp only [Board.make_legal_move]
  split_ifs <;> simp [Board.set_size]

theorem make_move_size (b : Board) (m : Move) : (b.make_move m).2.size = b.size := by
  unfold Board.make_move
  cases h : m.annotated b with
  | none => rfl
  | some lm => simp only [make_legal_move_size]

/-- The invariant-relevant fields of the three possible make_legal_move
results: the board is the set board with a possibly different state and
active entry. -/
theorem edgeEmptyCount_congr (b1 b2 : Board) (hs : b1.size = b2.size)
    (hd : b1.data = b2.data) : b1.edgeEmptyCount = b2.edgeEmptyCount := by
  cases b1
  cases b2
  cases hs
  cases hd
  rfl

theorem make_legal_move_fields (b : Board) (lm : LegalMove) :
    (b.make_legal_move lm).2.data = (b.set lm.row lm.col b.active).data ∧
      (b.make_legal_move lm).2.nlegal = (b.set lm.row lm.col b.active).nlegal ∧
      ((b.make_legal_move lm).2.active = b.active ∨
        (b.make_legal_move lm).2.active = b.active.flip) ∧
      (b.make_legal_move lm).2.edgeEmptyCount =
        (b.set lm.row lm.col b.active).edgeEmptyCount := by
  simp only [Board.make_legal_move]
  have hact := Board.set_active b lm.row lm.col b.active
  split_ifs <;> simp_all <;> exact edgeEmptyCount_congr _ _ rfl rfl

theorem Inv_make_legal_move (b : Board) (m : Move) (lm : LegalMove) (hsz : b.size ≠ 1)
    (hInv : b.Inv) (h : m.annotated b = some lm) : (b.make_legal_move lm).2.Inv := by
  obtain ⟨hrow, hcol, hemp⟩ := annotated_some_cell b m lm h
  have hane : b.active ≠ .Empty := by
    rcases hInv.2.1 with h2 | h2 <;> rw [h2] <;> intro hcc <;> cases hcc
  have hsetInv := Inv_set b lm.row lm.col b.active hsz hInv hrow hcol hemp hane
  obtain ⟨hd, hn, ha, he⟩ := make_legal_move_fields b lm
  refine ⟨?_, ?_, ?_⟩
  · rw [hd, Board.set_data_len, make_legal_move_size, hInv.1]
  · rcases ha with h2 | h2
    · rw [h2]; exact hInv.2.1
    · rw [h2]; exact Entry.flip_ne_empty _ hInv.2.1
  · rw [hn, he]
    exact hsetInv.2.2

theorem Inv_pass (b : Board) (hInv : b.Inv) : b.pass.Inv := by
  obtain ⟨hwf, hact, hcount⟩ := hInv
  exact ⟨hwf, Entry.flip_ne_empty _ hact, hcount⟩

/-- Every board of size other than 1 reachable by the program's board
constructions and mutations satisfies the representation invariant. -/
theorem reachable_inv (b : Board) (hb : Reachable b) (hsz : b.size ≠ 1) : b.Inv := by
  induction hb with
  | new size =>
    exact Inv_new size
  | genStep b2 row col hb2 hrow hcol hget ih =>
    rw [Board.set_size] at hsz
    exact Inv_set b2 row col .Block hsz (ih hsz) hrow hcol
      (Board.get_some_unchecked b2 row col .Empty hget) (by intro hcc; cases hcc)
  | move b2 m hb2 ih =>
    rw [make_move_size] at hsz
    unfold Board.make_move
    cases h : m.annotated b2 with
    | none => exact ih hsz
    | some lm => exact Inv_make_legal_move b2 m lm hsz (ih hsz) h
  | legal b2 m lm hb2 h ih =>
    rw [make_legal_move_size] at hsz
    exact Inv_make_legal_move b2 m lm hsz (ih hsz) h
  | pass b2 hb2 ih =>
    have : b2.pass.size = b2.size := rfl
    rw [this] at hsz
    exact Inv_pass b2 (ih hsz)

/-! ## Further helper lemmas for the claim theorems -/

theorem Board.get_congr (b1 b2 : Board) (hs : b1.size = b2.size) (hd : b1.data = b2.data)
    (r c : Nat) : b1.get r c = b2.get r c := by
  cases b1
  cases b2
  cases hs
  cases hd
  rfl

theorem make_legal_move_fst (b : Board) (lm : LegalMove) :
    (b.make_legal_move lm).1 = (b.make_legal_move lm).2.state := rfl

theorem make_legal_move_get (b : Board) (m : Move) (lm : LegalMove)
    (hwf : b.data.length = b.size * b.size) (h : m.annotated b = some lm) :
    (b.make_legal_move lm).2.get lm.row lm.col = some b.active := by
  obtain ⟨hrow, hcol, _⟩ := annotated_some_cell b m lm h
  obtain ⟨hd, _, _, _⟩ := make_legal_move_fields b lm
  rw [Board.get_congr (b.make_legal_move lm).2 (b.set lm.row lm.col b.active)
    (by rw [make_legal_move_size, Board.set_size]) hd]
  exact Board.get_set_same b lm.row lm.col b.active (by rw [hwf]; exact index_lt_of_lt b _ _ hrow hcol)

theorem make_legal_move_get_other (b : Board) (m : Move) (lm : LegalMove)
    (h : m.annotated b = some lm) (r c : Nat) (hc : c < b.size)
    (hne : ¬(r = lm.row ∧ c = lm.col)) :
    (b.make_legal_move lm).2.get r c = b.get r c := by
  obtain ⟨hrow, hcol, _⟩ := annotated_some_cell b m lm h
  obtain ⟨hd, _, _, _⟩ := make_legal_move_fields b lm
  rw [Board.get_congr (b.make_legal_move lm).2 (b.set lm.row lm.col b.active)
    (by rw [make_legal_move_size, Board.set_size]) hd]
  exact Board.get_set_ne b lm.row lm.col r c b.active
    (index_ne_of_cell_ne b r c lm.row lm.col hc hcol hne)

/-! ## Claim theorems -/

/-- C1: for every board b and move m, if m.annotated(b) is None then
make_move(m) returns IllegalMove(m) with the board byte-for-byte
unchanged, and if m.annotated(b) is Some then make_move succeeds,
returns the resulting game state, and only the landing cell of the grid
changes (it now holds the active entry). -/
theorem c1 (b : Board) (m : Move) (hwf : b.data.length = b.size * b.size) :
    (m.annotated b = none →
      b.make_move m = (Except.error (Error.IllegalMove m), b)) ∧
    (∀ lm : LegalMove, m.annotated b = some lm →
      (b.make_move m).1 = Except.ok (b.make_move m).2.state ∧
      (b.make_move m).2.get lm.row lm.col = some b.active ∧
      ∀ r c : Nat, r < b.size → c < b.size → ¬(r = lm.row ∧ c = lm.col) →
        (b.make_move m).2.get r c = b.get r c) := by
  constructor
  · intro h
    unfold Board.make_move
    rw [h]
  · intro lm h
    unfold Board.make_move
    rw [h]
    refine ⟨?_, ?_, ?_⟩
    · simp only [make_legal_move_fst]
    · exact make_legal_move_get b m lm hwf h
    · intro r c _ hc hne
      exact make_legal_move_get_other b m lm h r c hc hne

/-- Witness for c1 at a concrete board: an out-of-range North move is
rejected with the board unchanged, and a legal North move changes no
cell other than its landing cell. -/
theorem c1_witness :
    (Board.new 2).make_move { side := Side.North, pos := 5 } =
      (Except.error (Error.IllegalMove { side := Side.North, pos := 5 }), Board.new 2) ∧
    ((Board.new 2).make_move { side := Side.North, pos := 0 }).2.get 1 1 =
      (Board.new 2).get 1 1 := by
  constructor
  · exact (c1 (Board.new 2) { side := Side.North, pos := 5 } (by decide)).1 (by decide)
  · exact ((c1 (Board.new 2) { side := Side.North, pos := 0 } (by decide)).2
      { base := { side := Side.North, pos := 0 }, row := 1, col := 0, is_winning := false }
      (by decide)).2.2 1 1 (by decide) (by decide) (by decide)

/-- C3 counterexample: on the reachable board obtained by playing the
single legal North move on a board of size 1, nlegal is 2 while
legal_moves_iter yields 0 moves, so the claimed invariant fails as
stated (the lone cell is the origin of all four sides but set only
decrements nlegal by 2). -/
theorem c3_counterexample :
    Reachable ((Board.new 1).make_move { side := Side.North, pos := 0 }).2 ∧
    ((Board.new 1).make_move { side := Side.North, pos := 0 }).2.nlegal = 2 ∧
    ((Board.new 1).make_move { side := Side.North, pos := 0 }).2.legalMovesList.length = 0 := by
  refine ⟨Reachable.move _ _ (Reachable.new 1), by decide, ?_⟩
  rw [legalMovesList_eq_filterMap]
  decide

/-- C3 (amended to boards of size other than 1): for every reachable
board, nlegal equals the number of moves yielded by legal_moves_iter and
the number of (side, offset) pairs whose edge cell is Empty, and each
set of a non-Empty entry into an Empty cell decrements nlegal by one per
incident edge row and column (2 for a corner, 1 for a non-corner edge
cell, 0 interior). -/
theorem c3 (b : Board) (hb : Reachable b) (hsz : b.size ≠ 1) :
    b.nlegal = b.legalMovesList.length ∧ b.nlegal = b.edgeEmptyCount ∧
    (∀ (r c : Nat) (e : Entry), r < b.size → c < b.size →
      b.get_unchecked r c = .Empty → e ≠ .Empty →
      (b.set r c e).nlegal +
        ((if r = 0 ∨ r = b.size - 1 then 1 else 0) +
          (if c = 0 ∨ c = b.size - 1 then 1 else 0)) = b.nlegal) := by
  have hInv := reachable_inv b hb hsz
  refine ⟨by rw [legalMovesList_length]; exact hInv.2.2, hInv.2.2, ?_⟩
  intro r c e hr hc hemp hne
  have hilt : b.index_for r c < b.data.length := by
    rw [hInv.1]; exact index_lt_of_lt b r c hr hc
  rw [Board.set_nlegal_empty b r c e hilt hemp hne, hInv.2.2]
  have := edgeEmptyCount_set b r c e hInv.1 hsz hr hc hemp hne
  omega

/-- Witness for c3 at a concrete reachable board of size 2 with one
Block placed. -/
theorem c3_witness :
    ((Board.new 2).set 0 0 Entry.Block).nlegal =
      ((Board.new 2).set 0 0 Entry.Block).legalMovesList.length ∧
    ((Board.new 2).set 0 0 Entry.Block).nlegal =
      ((Board.new 2).set 0 0 Entry.Block).edgeEmptyCount :=
  ⟨(c3 ((Board.new 2).set 0 0 Entry.Block)
      (Reachable.genStep (Board.new 2) 0 0 (Reachable.new 2) (by decide) (by decide) (by decide))
      (by decide)).1,
    (c3 ((Board.new 2).set 0 0 Entry.Block)
      (Reachable.genStep (Board.new 2) 0 0 (Reachable.new 2) (by decide) (by decide) (by decide))
      (by decide)).2.1⟩

/-- C5: make_legal_move writes the active entry at the landing cell,
returns the resulting state, transitions to Won when the proof is
flagged winning, else to Drawn when nlegal has reached 0, and otherwise
stays Ongoing and flips the active player (which is not flipped in the
Won and Drawn cases). -/
theorem c5 (b : Board) (m : Move) (lm : LegalMove)
    (hwf : b.data.length = b.size * b.size) (hst : b.state = .Ongoing)
    (h : m.annotated b = some lm) :
    (b.make_legal_move lm).2.get lm.row lm.col = some b.active ∧
    (b.make_legal_move lm).1 = (b.make_legal_move lm).2.state ∧
    (lm.is_winning = true →
      (b.make_legal_move lm).2.state = .Won ∧ (b.make_legal_move lm).2.active = b.active) ∧
    (lm.is_winning = false → (b.set lm.row lm.col b.active).nlegal = 0 →
      (b.make_legal_move lm).2.state = .Drawn ∧ (b.make_legal_move lm).2.active = b.active) ∧
    (lm.is_winning = false → (b.set lm.row lm.col b.active).nlegal ≠ 0 →
      (b.make_legal_move lm).2.state = .Ongoing ∧
        (b.make_legal_move lm).2.active = b.active.flip) := by
  refine ⟨make_legal_move_get b m lm hwf h, make_legal_move_fst b lm, ?_, ?_, ?_⟩
  · intro hw
    simp only [Board.make_legal_move, hw]
    simp [Board.set_active]
  · intro hw hn
    simp only [Board.make_legal_move, hw, hn]
    simp [Board.set_active]
  · intro hw hn
    simp only [Board.make_legal_move, hw]
    rw [if_neg (by simp), if_neg hn]
    simp [Board.set_state, Board.set_active, hst]

/-- Witness for c5: the first North move on a fresh 4-sized board lands
at (3, 0), does not win, leaves the game Ongoing and flips the player. -/
theorem c5_witness :
    ((Board.new 4).make_legal_move
        { base := { side := Side.North, pos := 0 }, row := 3, col := 0, is_winning := false }).2.get
      3 0 = some (Board.new 4).active ∧
    ((Board.new 4).make_legal_move
        { base := { side := Side.North, pos := 0 }, row := 3, col := 0,
          is_winning := false }).2.state = GameState.Ongoing := by
  have h := c5 (Board.new 4) { side := Side.North, pos := 0 }
    { base := { side := Side.North, pos := 0 }, row := 3, col := 0, is_winning := false }
    (by decide) (by decide) (by decide)
  exact ⟨h.1, (h.2.2.2.2 (by decide) (by decide)).1⟩

/-- C9 counterexample: on a size-2 board, get(0, 2) is within the
flattened backing store and returns Some of the entry at (1, 0) rather
than None, so get is not bounds-checked against the two-dimensional
grid. -/
theorem c9_counterexample :
    (Board.new 2).size ≤ 2 ∧ (Board.new 2).get 0 2 = some Entry.Empty := by
  decide

/-- C9 (amended): get is bounds-checked against the flattened index
only: it returns None exactly when row*size + col is at least
size*size; a row at or beyond size always yields None, but an
out-of-range column can alias into a later row. -/
theorem c9 (b : Board) (hwf : b.data.length = b.size * b.size) (r c : Nat) :
    (b.get r c = none ↔ b.size * b.size ≤ r * b.size + c) ∧
      (b.size ≤ r → b.get r c = none) := by
  have hiff : b.get r c = none ↔ b.size * b.size ≤ r * b.size + c := by
    unfold Board.get Board.index_for
    rw [List.getElem?_eq_none_iff, hwf]
  refine ⟨hiff, fun hr => ?_⟩
  rw [hiff]
  calc b.size * b.size ≤ r * b.size := Nat.mul_le_mul_right _ hr
    _ ≤ r * b.size + c := Nat.le_add_right _ _

/-- Witness for c9: on a fresh size-2 board, get(5, 0) is None. -/
theorem c9_witness :
    (Board.new 2).get 5 0 = none ↔
      (Board.new 2).size * (Board.new 2).size ≤ 5 * (Board.new 2).size + 0 :=
  (c9 (Board.new 2) (by decide) 5 0).1

/-- C10: for offsets within range, the quick origin-emptiness test
is_legal agrees with full resolution by annotated; and the offset-range
hypothesis is required, because is_legal does not validate it: an
out-of-range offset can alias through the flattened index to an Empty
cell while annotated still fails. -/
theorem c10 :
    (∀ (b : Board) (m : Move), m.pos < b.size → b.data.length = b.size * b.size →
      (m.is_legal b = true ↔ ∃ lm : LegalMove, m.annotated b = some lm)) ∧
    (∃ (b : Board) (m : Move), b.size ≤ m.pos ∧ m.is_legal b = true ∧ m.annotated b = none) := by
  constructor
  · intro b m hp hwf
    obtain ⟨h1, h2⟩ := origin_in_range b m hp
    have hilt : b.index_for (m.origin b).1 (m.origin b).2 < b.data.length := by
      rw [hwf]; exact index_lt_of_lt b _ _ h1 h2
    have hleg : m.is_legal b =
        ((b.get_unchecked (m.origin b).1 (m.origin b).2).is_empty) := by
      simp only [Move.is_legal]
      rw [Board.get_eq_some_unchecked b _ _ hilt]
      rfl
    constructor
    · intro hl
      rw [hleg] at hl
      cases ha : m.annotated b with
      | some lm => exact ⟨lm, rfl⟩
      | none =>
        exfalso
        rw [annotated_none_iff, target_none_iff] at ha
        exact ha ⟨h1, h2, (Entry.is_empty_iff _).mp hl⟩
    · rintro ⟨lm, hlm⟩
      rw [hleg]
      apply (Entry.is_empty_iff _).mpr
      by_contra hcc
      have hnone : m.annotated b = none := by
        rw [annotated_none_iff, target_none_iff]
        intro hcon
        exact hcc hcon.2.2
      rw [hnone] at hlm
      cases hlm
  · refine ⟨Board.new 2, { side := Side.North, pos := 2 }, by decide, by decide, by decide⟩

/-- Witness for c10 at a concrete in-range move. -/
theorem c10_witness :
    ({ side := Side.North, pos := 0 } : Move).is_legal (Board.new 2) = true ↔
      ∃ lm : LegalMove, ({ side := Side.North, pos := 0 } : Move).annotated (Board.new 2) =
        some lm :=
  c10.1 (Board.new 2) { side := Side.North, pos := 0 } (by decide) (by decide)

/-! ## C6: ordered enumeration of legal moves -/

theorem mem_allMoves_of_pos (b : Board) (m : Move) (hp : m.pos < b.size) : m ∈ b.allMoves := by
  unfold Board.allMoves
  rcases m with ⟨s, p⟩
  have hmem : ∀ s2 : Side, ({ side := s2, pos := p } : Move) ∈
      ((List.range b.size).map fun q => ({ side := s2, pos := q } : Move)) := by
    intro s2
    exact List.mem_map.mpr ⟨p, List.mem_range.mpr hp, rfl⟩
  cases s
  · exact List.mem_append_left _ (List.mem_append_left _ (List.mem_append_left _ (hmem .North)))
  · exact List.mem_append_left _ (List.mem_append_left _ (List.mem_append_right _ (hmem .East)))
  · exact List.mem_append_left _ (List.mem_append_right _ (hmem .South))
  · exact List.mem_append_right _ (hmem .West)

theorem allMoves_nodup (b : Board) : b.allMoves.Nodup := by
  have hmap : ∀ s : Side,
      ((List.range b.size).map fun p => ({ side := s, pos := p } : Move)).Nodup := by
    intro s
    apply List.Nodup.map
    · intro p q h
      cases h
      rfl
    · exact List.nodup_range _
  have hside : ∀ (s : Side) (m : Move),
      m ∈ ((List.range b.size).map fun p => ({ side := s, pos := p } : Move)) → m.side = s := by
    intro s m hm
    simp only [List.mem_map, List.mem_range] at hm
    obtain ⟨p, _, rfl⟩ := hm
    rfl
  have hdisj : ∀ s1 s2 : Side, s1 ≠ s2 →
      List.Disjoint ((List.range b.size).map fun p => ({ side := s1, pos := p } : Move))
        ((List.range b.size).map fun p => ({ side := s2, pos := p } : Move)) := by
    intro s1 s2 hne m h1 h2
    exact hne (by rw [← hside s1 m h1, hside s2 m h2])
  unfold Board.allMoves
  refine List.Nodup.append
    (List.Nodup.append
      (List.Nodup.append (hmap .North) (hmap .East) (hdisj .North .East (by decide)))
      (hmap .South) ?_)
    (hmap .West) ?_
  · rw [List.disjoint_append_left]
    exact ⟨hdisj .North .South (by decide), hdisj .East .South (by decide)⟩
  · rw [List.disjoint_append_left, List.disjoint_append_left]
    exact ⟨⟨hdisj .North .West (by decide), hdisj .East .West (by decide)⟩,
      hdisj .South .West (by decide)⟩

theorem legal_map_base (b : Board) (l : List Move) :
    ((l.filterMap fun m => m.annotated b).map fun lm => lm.base) =
      l.filter fun m => (m.annotated b).isSome := by
  induction l with
  | nil => rfl
  | cons a t ih =>
    rw [List.filterMap_cons, List.filter_cons]
    cases h : a.annotated b with
    | none => simp [h, ih]
    | some lm =>
      have hb := (annotated_some_props b a lm h).2.1
      simp [h, ih, hb]

/-- C6: legal_moves_iter yields exactly the moves with offset below size
whose annotated resolution succeeds, each exactly once and already
annotated, in the fixed North, East, South, West order with increasing
offset per side (the canonical allMoves order). -/
theorem c6 (b : Board) :
    b.legalMovesList = b.allMoves.filterMap (fun m => m.annotated b) ∧
    (∀ lm : LegalMove, lm ∈ b.legalMovesList ↔
      lm.base.pos < b.size ∧ lm.base.annotated b = some lm) ∧
    b.legalMovesList.Nodup := by
  refine ⟨legalMovesList_eq_filterMap b, ?_, ?_⟩
  · intro lm
    rw [legalMovesList_eq_filterMap, List.mem_filterMap]
    constructor
    · rintro ⟨m, hm, hann⟩
      have hb := (annotated_some_props b m lm hann).2.1
      subst hb
      exact ⟨allMoves_pos_lt b _ hm, hann⟩
    · rintro ⟨hp, hann⟩
      exact ⟨lm.base, mem_allMoves_of_pos b lm.base hp, hann⟩
  · have h1 : (b.legalMovesList.map fun lm => lm.base).Nodup := by
      rw [legalMovesList_eq_filterMap, legal_map_base]
      exact (allMoves_nodup b).filter _
    exact h1.of_map

/-- Witness for c6 at a concrete board. -/
theorem c6_witness :
    (Board.new 2).legalMovesList =
      (Board.new 2).allMoves.filterMap fun m => m.annotated (Board.new 2) :=
  (c6 (Board.new 2)).1

/-! ## C4: characterization of Move::target as the edge-push walk -/

theorem target_eq_walkTarget (b : Board) (m : Move) :
    m.target b = walkTarget b m.side b.size (m.origin b).1 (m.origin b).2 := rfl

theorem walkTarget_zero (b : Board) (side : Side) (row col : Nat) :
    walkTarget b side 0 row col = none := rfl

theorem walkTarget_stop (b : Board) (side : Side) (fuel row col : Nat)
    (h : ¬ cellOpen b (row, col)) : walkTarget b side (fuel + 1) row col = none := by
  unfold walkTarget
  rw [moveVectorFuel]
  by_cases hr : b.size ≤ row ∨ b.size ≤ col
  · rw [if_pos hr]
    rfl
  · rw [if_neg hr]
    rw [List.takeWhile_cons]
    have hne : (b.get_unchecked row col).is_empty = false := by
      by_contra h2
      rw [Bool.not_eq_false] at h2
      exact h ⟨by omega, by omega, (Entry.is_empty_iff _).mp h2⟩
    rw [hne]
    rfl

theorem walkTarget_none_of_out (b : Board) (side : Side) (fuel row col : Nat)
    (h : b.size ≤ row ∨ b.size ≤ col) : walkTarget b side fuel row col = none := by
  cases fuel with
  | zero => rfl
  | succ f =>
    refine walkTarget_stop b side f row col (fun hc => ?_)
    simp only [cellOpen] at hc
    omega

theorem walkTarget_go (b : Board) (side : Side) (fuel row col : Nat)
    (h : cellOpen b (row, col)) :
    walkTarget b side (fuel + 1) row col =
      match walkTarget b side fuel (side.stepRC (row, col)).1 (side.stepRC (row, col)).2 with
      | some t => some t
      | none => some (row, col) := by
  obtain ⟨hr, hc, he⟩ := h
  unfold walkTarget
  rw [moveVectorFuel, if_neg (by omega)]
  rw [List.takeWhile_cons]
  rw [if_pos (by rw [(Entry.is_empty_iff _)]; exact he)]
  cases hl : (moveVectorFuel b side fuel (side.stepRC (row, col)).1
      (side.stepRC (row, col)).2).takeWhile fun x => x.2.2.is_empty with
  | nil => rfl
  | cons y ys =>
    rw [List.getLast?_cons_cons]
    cases hgl : (y :: ys).getLast? with
    | none =>
      rw [List.getLast?_eq_none_iff] at hgl
      exact absurd hgl (by simp)
    | some z => rfl

theorem walkTarget_isSome_of_open (b : Board) (side : Side) (fuel row col : Nat)
    (h : cellOpen b (row, col)) : walkTarget b side (fuel + 1) row col ≠ none := by
  rw [walkTarget_go b side fuel row col h]
  cases walkTarget b side fuel (side.stepRC (row, col)).1 (side.stepRC (row, col)).2 <;> simp

theorem walkPot_pos (b : Board) (side : Side) (row col : Nat)
    (h : cellOpen b (row, col)) : 1 ≤ walkPot b side row col := by
  obtain ⟨hr, hc, _⟩ := h
  cases side <;> simp [walkPot] <;> omega

theorem walkPot_step (b : Board) (side : Side) (row col : Nat) (hsize : b.size < USIZE)
    (h : cellOpen b (row, col)) :
    b.size ≤ (side.stepRC (row, col)).1 ∨ b.size ≤ (side.stepRC (row, col)).2 ∨
      walkPot b side (side.stepRC (row, col)).1 (side.stepRC (row, col)).2 + 1 =
        walkPot b side row col := by
  obtain ⟨hr, hc, _⟩ := h
  cases side with
  | North =>
    simp only [Side.stepRC, walkPot]
    omega
  | East =>
    simp only [Side.stepRC, walkPot, wrapSub1]
    by_cases h0 : col = 0
    · rw [if_pos h0]
      right
      left
      omega
    · rw [if_neg h0]
      right
      right
      omega
  | South =>
    simp only [Side.stepRC, walkPot, wrapSub1]
    by_cases h0 : row = 0
    · rw [if_pos h0]
      left
      omega
    · rw [if_neg h0]
      right
      right
      omega
  | West =>
    simp only [Side.stepRC, walkPot]
    omega

theorem walk_char (b : Board) (side : Side) (hsize : b.size < USIZE) :
    ∀ (fuel row col : Nat), walkPot b side row col ≤ fuel →
      ∀ r c : Nat, walkTarget b side fuel row col = some (r, c) →
        ∃ k : Nat, (r, c) = (side.stepRC)^[k] (row, col) ∧
          (∀ j, j ≤ k → cellOpen b ((side.stepRC)^[j] (row, col))) ∧
          ¬ cellOpen b ((side.stepRC)^[k + 1] (row, col)) := by
  intro fuel
  induction fuel with
  | zero =>
    intro row col _ r c hw
    rw [walkTarget_zero] at hw
    cases hw
  | succ f ih =>
    intro row col hpot r c hw
    by_cases hopen : cellOpen b (row, col)
    · rw [walkTarget_go b side f row col hopen] at hw
      cases hin : walkTarget b side f (side.stepRC (row, col)).1 (side.stepRC (row, col)).2 with
      | some t =>
        rw [hin] at hw
        have ht : t = (r, c) := Option.some.inj hw
        subst ht
        have hpot2 : walkPot b side (side.stepRC (row, col)).1 (side.stepRC (row, col)).2 ≤ f := by
          rcases walkPot_step b side row col hsize hopen with h2 | h2 | h2
          · exact absurd hin (by rw [walkTarget_none_of_out b side f _ _ (Or.inl h2)]; simp)
          · exact absurd hin (by rw [walkTarget_none_of_out b side f _ _ (Or.inr h2)]; simp)
          · omega
        obtain ⟨k, h1, h2, h3⟩ := ih (side.stepRC (row, col)).1 (side.stepRC (row, col)).2
          hpot2 r c hin
        refine ⟨k + 1, ?_, ?_, ?_⟩
        · rw [Function.iterate_succ_apply]
          simpa using h1
        · intro j hj
          cases j with
          | zero => exact hopen
          | succ j2 =>
            rw [Function.iterate_succ_apply]
            exact h2 j2 (by omega)
        · rw [Function.iterate_succ_apply]
          exact h3
      | none =>
        rw [hin] at hw
        have h1 : (row, col) = (r, c) := Option.some.inj hw
        refine ⟨0, by rw [Function.iterate_zero_apply]; exact h1.symm, ?_, ?_⟩
        · intro j hj
          have hj0 : j = 0 := by omega
          subst hj0
          rw [Function.iterate_zero_apply]
          exact hopen
        · intro hopen2
          rw [Function.iterate_one] at hopen2
          have hpos : 1 ≤ walkPot b side (side.stepRC (row, col)).1 (side.stepRC (row, col)).2 :=
            walkPot_pos b side _ _ (by simpa using hopen2)
          have hf : walkPot b side (side.stepRC (row, col)).1 (side.stepRC (row, col)).2 ≤ f := by
            rcases walkPot_step b side row col hsize hopen with h2 | h2 | h2
            · exact absurd hopen2 (fun hc2 => by
                have h3 := hc2.1
                simp only [cellOpen] at h3
                omega)
            · exact absurd hopen2 (fun hc2 => by
                have h3 := hc2.2.1
                omega)
            · omega
          obtain ⟨f2, rfl⟩ : ∃ f2, f = f2 + 1 := ⟨f - 1, by omega⟩
          exact walkTarget_isSome_of_open b side f2 _ _ (by simpa using hopen2) hin
    · rw [walkTarget_stop b side f row col hopen] at hw
      cases hw

theorem walkPot_origin (b : Board) (m : Move) (h : cellOpen b (m.origin b)) :
    walkPot b m.side (m.origin b).1 (m.origin b).2 ≤ b.size := by
  obtain ⟨h1, h2, _⟩ := h
  cases hs : m.side <;> simp only [Move.origin, hs, walkPot] at h1 h2 ⊢ <;> omega

/-- C4: target follows the edge-push rule: when it returns a cell, that
cell is reached from the origin through consecutive open (in-range,
Empty) cells and the next position along the inward direction is closed
(out of range or occupied); and target is None exactly when the origin
cell is not an open cell (occupied, or out of range). -/
theorem c4 (b : Board) (m : Move) (hsize : b.size < USIZE) :
    (m.target b = none ↔ ¬ cellOpen b (m.origin b)) ∧
    (∀ r c : Nat, m.target b = some (r, c) →
      ∃ k : Nat, (r, c) = (m.side.stepRC)^[k] (m.origin b) ∧
        (∀ j, j ≤ k → cellOpen b ((m.side.stepRC)^[j] (m.origin b))) ∧
        ¬ cellOpen b ((m.side.stepRC)^[k + 1] (m.origin b))) := by
  constructor
  · rw [target_none_iff]
    unfold cellOpen
    exact Iff.rfl
  · intro r c hw
    have hopen : cellOpen b (m.origin b) := by
      by_contra hcc
      have : m.target b = none := by
        rw [target_none_iff]
        exact fun h2 => hcc ⟨h2.1, h2.2.1, h2.2.2⟩
      rw [this] at hw
      cases hw
    have hpot := walkPot_origin b m hopen
    have := walk_char b m.side hsize b.size (m.origin b).1 (m.origin b).2 hpot r c
      (by rw [← target_eq_walkTarget]; exact hw)
    simpa using this

/-- Witness for c4: the first North move on a fresh size-2 board pushes
through (0,0) to land on (1,0), and the next step (2,0) leaves the
grid. -/
theorem c4_witness :
    ∃ k : Nat, ((1 : Nat), (0 : Nat)) =
        (Side.North.stepRC)^[k] (({ side := Side.North, pos := 0 } : Move).origin (Board.new 2)) ∧
      (∀ j, j ≤ k → cellOpen (Board.new 2)
        ((Side.North.stepRC)^[j] (({ side := Side.North, pos := 0 } : Move).origin (Board.new 2)))) ∧
      ¬ cellOpen (Board.new 2)
        ((Side.North.stepRC)^[k + 1] (({ side := Side.North, pos := 0 } : Move).origin (Board.new 2))) :=
  (c4 (Board.new 2) { side := Side.North, pos := 0 } (by norm_num [USIZE, Board.new])).2 1 0
    (by decide)

/-! ## C7: win-check consistency -/

theorem winGo_eq_boolGo (b : Board) (isThis : Nat → Nat → Bool) :
    ∀ (cells : List (Nat × Nat)) (n : Nat),
      winGo b isThis n cells =
        boolGo n (cells.map fun rc => isThis rc.1 rc.2 || (b.active == b.get_unchecked rc.1 rc.2)) := by
  intro cells
  induction cells with
  | nil => intro n; rfl
  | cons rc rest ih =>
    intro n
    rcases rc with ⟨r1, c1⟩
    rw [winGo, List.map_cons, boolGo]
    by_cases h : (isThis r1 c1 || (b.active == b.get_unchecked r1 c1)) = true
    · rw [if_pos h]
      simp only [h, if_true]
      by_cases h4 : n + 1 ≥ 4
      · rw [if_pos h4, if_pos h4]
      · rw [if_neg h4, if_neg h4, ih]
    · rw [if_neg h]
      simp only [h, Bool.false_eq_true, if_false]
      exact ih 0

theorem take_replicate_le (l : List Bool) (j : Nat)
    (h : l.take j = List.replicate j true) : j ≤ l.length := by
  have := congrArg List.length h
  simp only [List.length_take, List.length_replicate] at this
  omega

theorem take_replicate_four (l : List Bool) (j : Nat) (h4 : 4 ≤ j)
    (h : l.take j = List.replicate j true) : l.take 4 = List.replicate 4 true := by
  have : l.take 4 = (l.take j).take 4 := by
    rw [List.take_take]
    congr 1
    omega
  rw [this, h]
  rw [List.take_replicate]
  congr 1
  omega

theorem boolGo_iff (bs : List Bool) : ∀ n, n < 4 →
    (boolGo n bs = true ↔
      (∃ j, 4 ≤ n + j ∧ bs.take j = List.replicate j true) ∨
      (∃ i, (bs.drop i).take 4 = List.replicate 4 true)) := by
  induction bs with
  | nil =>
    intro n hn
    constructor
    · intro h
      exact absurd h (by simp [boolGo])
    · rintro (⟨j, hj4, hrep⟩ | ⟨i, hrep⟩)
      · have hle := take_replicate_le [] j hrep
        simp only [List.length_nil] at hle
        omega
      · rw [List.drop_nil] at hrep
        have := congrArg List.length hrep
        simp at this
  | cons x rest ih =>
    intro n hn
    cases x with
    | true =>
      by_cases h4 : n + 1 ≥ 4
      · have hlhs : boolGo n (true :: rest) = true := by
          rw [boolGo]
          simp [h4]
        rw [hlhs]
        constructor
        · intro _
          left
          exact ⟨1, by omega, by simp [List.replicate_succ]⟩
        · intro _
          rfl
      · have hlhs : boolGo n (true :: rest) = boolGo (n + 1) rest := by
          rw [boolGo]
          simp [h4]
        rw [hlhs, ih (n + 1) (by omega)]
        constructor
        · rintro (⟨j, hj4, hrep⟩ | ⟨i, hrep⟩)
          · left
            exact ⟨j + 1, by omega, by rw [List.take_succ_cons, List.replicate_succ, hrep]⟩
          · right
            exact ⟨i + 1, by rw [List.drop_succ_cons]; exact hrep⟩
        · rintro (⟨j, hj4, hrep⟩ | ⟨i, hrep⟩)
          · cases j with
            | zero => omega
            | succ j2 =>
              rw [List.take_succ_cons, List.replicate_succ] at hrep
              left
              exact ⟨j2, by omega, by exact (List.cons.injEq _ _ _ _).mp hrep |>.2⟩
          · cases i with
            | zero =>
              rw [List.drop_zero] at hrep
              have hlen : 4 ≤ (true :: rest).length := by
                have := congrArg List.length hrep
                simp only [List.length_take, List.length_replicate] at this
                omega
              rw [show (4 : Nat) = 3 + 1 from rfl, List.take_succ_cons] at hrep
              have hrest : rest.take 3 = List.replicate 3 true := by
                have := (List.cons.injEq _ _ _ _).mp hrep
                exact this.2
              left
              exact ⟨3, by omega, hrest⟩
            | succ i2 =>
              rw [List.drop_succ_cons] at hrep
              right
              exact ⟨i2, hrep⟩
    | false =>
      have hlhs : boolGo n (false :: rest) = boolGo 0 rest := by
        rw [boolGo]
        simp
      rw [hlhs, ih 0 (by omega)]
      constructor
      · rintro (⟨j, hj4, hrep⟩ | ⟨i, hrep⟩)
        · right
          refine ⟨1, ?_⟩
          rw [List.drop_succ_cons, List.drop_zero]
          exact take_replicate_four rest j (by omega) hrep
        · exact Or.inr ⟨i + 1, by rw [List.drop_succ_cons]; exact hrep⟩
      · rintro (⟨j, hj4, hrep⟩ | ⟨i, hrep⟩)
        · cases j with
          | zero => omega
          | succ j2 =>
            rw [List.take_succ_cons, List.replicate_succ] at hrep
            have := (List.cons.injEq _ _ _ _).mp hrep
            cases this.1
        · cases i with
          | zero =>
            rw [List.drop_zero, show (4 : Nat) = 3 + 1 from rfl, List.take_succ_cons,
              List.replicate_succ] at hrep
            have := (List.cons.injEq _ _ _ _).mp hrep
            cases this.1
          | succ i2 =>
            rw [List.drop_succ_cons] at hrep
            right
            exact ⟨i2, hrep⟩

theorem boolGo_zero_iff (bs : List Bool) :
    boolGo 0 bs = true ↔ ∃ i, (bs.drop i).take 4 = List.replicate 4 true := by
  rw [boolGo_iff bs 0 (by omega)]
  constructor
  · rintro (⟨j, hj4, hrep⟩ | h)
    · exact ⟨0, by rw [List.drop_zero]; exact take_replicate_four bs j (by omega) hrep⟩
    · exact h
  · intro h
    exact Or.inr h

theorem map_beq_eq_replicate (e : Entry) : ∀ (n : Nat) (w : List Entry),
    ((w.map fun x => x == e) = List.replicate n true ↔ w = List.replicate n e) := by
  intro n
  induction n with
  | zero =>
    intro w
    cases w <;> simp
  | succ k ih =>
    intro w
    cases w with
    | nil => simp [List.replicate_succ]
    | cons a t =>
      rw [List.map_cons, List.replicate_succ, List.replicate_succ]
      constructor
      · intro h
        have h2 := (List.cons.injEq _ _ _ _).mp h
        rw [(ih t).mp h2.2]
        rw [eq_of_beq h2.1]
      · intro h
        have h2 := (List.cons.injEq _ _ _ _).mp h
        rw [(ih t).mpr h2.2, h2.1]
        simp

theorem hasFourRun_iff (l : List Entry) (e : Entry) :
    hasFourRun l e = true ↔ ∃ i, (l.drop i).take 4 = [e, e, e, e] := by
  unfold hasFourRun
  rw [List.any_eq_true]
  constructor
  · rintro ⟨i, _, hi⟩
    exact ⟨i, of_decide_eq_true hi⟩
  · rintro ⟨i, hi⟩
    have hlen : i < l.length := by
      by_contra hcc
      rw [List.drop_eq_nil_of_le (by omega)] at hi
      cases hi
    exact ⟨i, List.mem_range.mpr hlen, decide_eq_true hi⟩

theorem boolGo_map_iff (l : List Entry) (e : Entry) :
    boolGo 0 (l.map fun x => x == e) = true ↔ hasFourRun l e = true := by
  rw [boolGo_zero_iff, hasFourRun_iff]
  constructor
  · rintro ⟨i, hi⟩
    refine ⟨i, ?_⟩
    rw [← List.map_drop, ← List.map_take] at hi
    have := (map_beq_eq_replicate e 4 ((l.drop i).take 4)).mp hi
    rw [this]
    rfl
  · rintro ⟨i, hi⟩
    refine ⟨i, ?_⟩
    rw [← List.map_drop, ← List.map_take]
    apply (map_beq_eq_replicate e 4 ((l.drop i).take 4)).mpr
    rw [hi]
    rfl

theorem entry_beq_comm (a b : Entry) : (a == b) = (b == a) := by
  cases a <;> cases b <;> rfl

/-- The match bit of the pre-placement scan at an in-range cell equals
the post-placement active-entry bit. -/
theorem bit_at (b : Board) (row col : Nat) (hwf : b.data.length = b.size * b.size)
    (hrow : row < b.size) (hcol : col < b.size) (r1 c1 : Nat)
    (hr1 : r1 < b.size) (hc1 : c1 < b.size) (isAt : Bool)
    (hiff : isAt = true ↔ (r1 = row ∧ c1 = col)) :
    (isAt || (b.active == b.get_unchecked r1 c1)) =
      ((b.set row col b.active).get_unchecked r1 c1 == b.active) := by
  by_cases hcase : r1 = row ∧ c1 = col
  · obtain ⟨rfl, rfl⟩ := hcase
    rw [Board.get_unchecked_set_same _ _ _ _ (by rw [hwf]; exact index_lt_of_lt b _ _ hrow hcol)]
    rw [hiff.mpr ⟨rfl, rfl⟩]
    simp
  · rw [Board.get_unchecked_set_ne _ _ _ _ _ _
      (index_ne_of_cell_ne b r1 c1 row col hc1 hcol hcase)]
    have hA : isAt = false := by
      by_contra h2
      rw [Bool.not_eq_false] at h2
      exact hcase (hiff.mp h2)
    rw [hA, Bool.false_or, entry_beq_comm]

theorem rangeFrom_mem (a n x : Nat) (h : x ∈ rangeFrom a n) : a ≤ x ∧ x < n := by
  unfold rangeFrom at h
  simp only [List.mem_map, List.mem_range] at h
  obtain ⟨k, hk, rfl⟩ := h
  omega

theorem scan_iff_hasFour (b : Board) (isThis : Nat → Nat → Bool) (cells : List (Nat × Nat))
    (b2 : Board)
    (hbits : (cells.map fun rc => isThis rc.1 rc.2 || (b.active == b.get_unchecked rc.1 rc.2)) =
      (b2.lineEntries cells).map fun x => x == b.active) :
    winGo b isThis 0 cells = true ↔ hasFourRun (b2.lineEntries cells) b.active = true := by
  rw [winGo_eq_boolGo, hbits, boolGo_map_iff]

theorem bits_horiz (b : Board) (row col : Nat) (hwf : b.data.length = b.size * b.size)
    (hrow : row < b.size) (hcol : col < b.size) :
    ((b.horizCells row).map fun rc => (rc.2 == col) ||
        (b.active == b.get_unchecked rc.1 rc.2)) =
      (((b.set row col b.active).lineEntries (b.horizCells row)).map fun x => x == b.active) := by
  unfold Board.lineEntries
  rw [List.map_map]
  apply List.map_congr_left
  intro rc hrc
  simp only [Board.horizCells, List.mem_map, List.mem_range] at hrc
  obtain ⟨c1, hc1, rfl⟩ := hrc
  exact bit_at b row col hwf hrow hcol row c1 hrow hc1 (c1 == col)
    (by rw [beq_iff_eq]; constructor
        · intro h; exact ⟨rfl, h⟩
        · intro h; exact h.2)

theorem bits_vert (b : Board) (row col : Nat) (hwf : b.data.length = b.size * b.size)
    (hrow : row < b.size) (hcol : col < b.size) :
    ((b.vertCells col).map fun rc => (rc.1 == row) ||
        (b.active == b.get_unchecked rc.1 rc.2)) =
      (((b.set row col b.active).lineEntries (b.vertCells col)).map fun x => x == b.active) := by
  unfold Board.lineEntries
  rw [List.map_map]
  apply List.map_congr_left
  intro rc hrc
  simp only [Board.vertCells, List.mem_map, List.mem_range] at hrc
  obtain ⟨r1, hr1, rfl⟩ := hrc
  exact bit_at b row col hwf hrow hcol r1 col hr1 hcol (r1 == row)
    (by rw [beq_iff_eq]; constructor
        · intro h; exact ⟨h, rfl⟩
        · intro h; exact h.1)

theorem diagNWSE_mem (b : Board) (row col : Nat) (rc : Nat × Nat)
    (h : rc ∈ b.diagNWSECells row col) : rc.1 < b.size ∧ rc.2 < b.size := by
  simp only [Board.diagNWSECells] at h
  obtain ⟨h1, h2⟩ := List.of_mem_zip h
  exact ⟨(rangeFrom_mem _ _ _ h1).2, (rangeFrom_mem _ _ _ h2).2⟩

theorem diagSWNE_mem (b : Board) (row col : Nat) (hrow : row < b.size) (rc : Nat × Nat)
    (h : rc ∈ b.diagSWNECells row col) : rc.1 < b.size ∧ rc.2 < b.size := by
  simp only [Board.diagSWNECells] at h
  obtain ⟨h1, h2⟩ := List.of_mem_zip h
  rw [List.mem_reverse, List.mem_range] at h1
  refine ⟨?_, (rangeFrom_mem _ _ _ h2).2⟩
  have hd : min (b.size - row - 1) col ≤ b.size - row - 1 := Nat.min_le_left _ _
  omega

theorem bits_diag (b : Board) (row col : Nat) (hwf : b.data.length = b.size * b.size)
    (hrow : row < b.size) (hcol : col < b.size) (cells : List (Nat × Nat))
    (hin : ∀ rc ∈ cells, rc.1 < b.size ∧ rc.2 < b.size) :
    (cells.map fun rc => (rc.1 == row && rc.2 == col) ||
        (b.active == b.get_unchecked rc.1 rc.2)) =
      (((b.set row col b.active).lineEntries cells).map fun x => x == b.active) := by
  unfold Board.lineEntries
  rw [List.map_map]
  apply List.map_congr_left
  intro rc hrc
  obtain ⟨h1, h2⟩ := hin rc hrc
  exact bit_at b row col hwf hrow hcol rc.1 rc.2 h1 h2 (rc.1 == row && rc.2 == col)
    (by rw [Bool.and_eq_true, beq_iff_eq, beq_iff_eq])

set_option maxHeartbeats 1000000 in
/-- C7: the pre-placement is_winning check (in which the queried cell
counts as a match regardless of its stored content) agrees with
recomputing four-in-a-row from scratch after physically writing the
active entry at the queried cell: it is true exactly when one of the
four complete lines through the cell then contains a run of four or
more consecutive active entries. -/
theorem c7 (b : Board) (row col : Nat) (hwf : b.data.length = b.size * b.size)
    (hrow : row < b.size) (hcol : col < b.size) :
    b.is_winning row col = true ↔
      (hasFourRun ((b.set row col b.active).lineEntries (b.horizCells row)) b.active = true ∨
       hasFourRun ((b.set row col b.active).lineEntries (b.vertCells col)) b.active = true ∨
       hasFourRun ((b.set row col b.active).lineEntries (b.diagNWSECells row col))
         b.active = true ∨
       hasFourRun ((b.set row col b.active).lineEntries (b.diagSWNECells row col))
         b.active = true) := by
  have hH := scan_iff_hasFour b (fun _ c1 => c1 == col) (b.horizCells row) _
    (bits_horiz b row col hwf hrow hcol)
  have hV := scan_iff_hasFour b (fun r1 _ => r1 == row) (b.vertCells col) _
    (bits_vert b row col hwf hrow hcol)
  have hD1 := scan_iff_hasFour b (fun r1 c1 => r1 == row && c1 == col)
    (b.diagNWSECells row col) _
    (bits_diag b row col hwf hrow hcol _ (fun rc hrc => diagNWSE_mem b row col rc hrc))
  have hD2 := scan_iff_hasFour b (fun r1 c1 => r1 == row && c1 == col)
    (b.diagSWNECells row col) _
    (bits_diag b row col hwf hrow hcol _ (fun rc hrc => diagSWNE_mem b row col hrow rc hrc))
  unfold Board.is_winning Board.is_winning_horiz Board.is_winning_vert
    Board.is_winning_diag_nw_se Board.is_winning_diag_sw_ne
  rw [Bool.or_eq_true, Bool.or_eq_true, Bool.or_eq_true]
  rw [hH, hV, hD1, hD2, or_assoc, or_assoc]

/-- Witness for c7: on a board with three Player1 entries stacked in
column 4, the pre-placement check at (6, 4) is true and the recomputed
vertical line after placement indeed holds four in a row. -/
theorem c7_witness :
    (let b3 := (((Board.new 10).set 9 4 Entry.Player1).set 8 4 Entry.Player1).set 7 4
      Entry.Player1
    b3.is_winning 6 4 = true ↔
      (hasFourRun ((b3.set 6 4 b3.active).lineEntries (b3.horizCells 6)) b3.active = true ∨
       hasFourRun ((b3.set 6 4 b3.active).lineEntries (b3.vertCells 4)) b3.active = true ∨
       hasFourRun ((b3.set 6 4 b3.active).lineEntries (b3.diagNWSECells 6 4)) b3.active = true ∨
       hasFourRun ((b3.set 6 4 b3.active).lineEntries (b3.diagSWNECells 6 4))
         b3.active = true)) :=
  c7 ((((Board.new 10).set 9 4 Entry.Player1).set 8 4 Entry.Player1).set 7 4 Entry.Player1)
    6 4 (by decide) (by decide) (by decide)

/-! ## C2: folding of certain children in Probabilistic::explore -/

theorem keyLt_trans {a b c : Nat × ℚ × Int} (h1 : KeyLt a b) (h2 : KeyLt b c) : KeyLt a c := by
  unfold KeyLt at h1 h2 ⊢
  rcases h1 with h1 | ⟨e1, h1⟩ <;> rcases h2 with h2 | ⟨e2, h2⟩
  · exact Or.inl (h1.trans h2)
  · exact Or.inl (e2 ▸ h1)
  · exact Or.inl (e1 ▸ h2)
  · refine Or.inr ⟨e1.trans e2, ?_⟩
    rcases h1 with h1 | ⟨f1, h1⟩ <;> rcases h2 with h2 | ⟨f2, h2⟩
    · exact Or.inl (h1.trans h2)
    · exact Or.inl (f2 ▸ h1)
    · exact Or.inl (f1 ▸ h2)
    · exact Or.inr ⟨f1.trans f2, h1.trans h2⟩

theorem keyLt_irrefl (a : Nat × ℚ × Int) : ¬ KeyLt a a := by
  unfold KeyLt
  intro h
  rcases h with h | ⟨_, h | ⟨_, h⟩⟩ <;> exact absurd h (lt_irrefl _)

theorem keyLt_trichotomy (a b : Nat × ℚ × Int) : KeyLt a b ∨ a = b ∨ KeyLt b a := by
  unfold KeyLt
  rcases Nat.lt_trichotomy a.1 b.1 with h1 | h1 | h1
  · exact Or.inl (Or.inl h1)
  · rcases lt_trichotomy a.2.1 b.2.1 with h2 | h2 | h2
    · exact Or.inl (Or.inr ⟨h1, Or.inl h2⟩)
    · rcases Int.lt_trichotomy a.2.2 b.2.2 with h3 | h3 | h3
      · exact Or.inl (Or.inr ⟨h1, Or.inr ⟨h2, h3⟩⟩)
      · exact Or.inr (Or.inl (Prod.ext h1 (Prod.ext h2 h3)))
      · exact Or.inr (Or.inr (Or.inr ⟨h1.symm, Or.inr ⟨h2.symm, h3⟩⟩))
    · exact Or.inr (Or.inr (Or.inr ⟨h1.symm, Or.inl h2⟩))
  · exact Or.inr (Or.inr (Or.inl h1))

theorem maxGo_spec :
    ∀ (l : List ((Nat × ℚ × Int) × Nat × Node)) (acc : (Nat × ℚ × Int) × Nat × Node),
      (maxGo acc l = acc ∨ maxGo acc l ∈ l) ∧ ¬ KeyLt (maxGo acc l).1 acc.1 ∧
        ∀ x ∈ l, ¬ KeyLt (maxGo acc l).1 x.1 := by
  intro l
  induction l with
  | nil => exact fun acc => ⟨Or.inl rfl, keyLt_irrefl _, fun x hx => absurd hx (by simp)⟩
  | cons x rest ih =>
    intro acc
    have hstep : maxGo acc (x :: rest) = maxGo (if KeyLt x.1 acc.1 then acc else x) rest := rfl
    by_cases hx : KeyLt x.1 acc.1
    · rw [hstep, if_pos hx]
      obtain ⟨hmem, hacc, hall⟩ := ih acc
      refine ⟨?_, hacc, ?_⟩
      · rcases hmem with h | h
        · exact Or.inl h
        · exact Or.inr (List.mem_cons_of_mem _ h)
      · intro y hy
        rcases List.mem_cons.mp hy with rfl | hy
        · intro hcon
          exact hacc (keyLt_trans hcon hx)
        · exact hall y hy
    · rw [hstep, if_neg hx]
      obtain ⟨hmem, haccx, hall⟩ := ih x
      refine ⟨?_, ?_, ?_⟩
      · rcases hmem with h | h
        · exact Or.inr (by rw [h]; exact List.mem_cons_self _ _)
        · exact Or.inr (List.mem_cons_of_mem _ h)
      · intro hcon
        rcases keyLt_trichotomy acc.1 x.1 with h2 | h2 | h2
        · exact haccx (keyLt_trans hcon h2)
        · exact haccx (h2 ▸ hcon)
        · exact hx h2
      · intro y hy
        rcases List.mem_cons.mp hy with rfl | hy
        · exact haccx
        · exact hall y hy

theorem maxByLast_spec (l : List ((Nat × ℚ × Int) × Nat × Node)) (hne : l ≠ []) :
    ∃ y, maxByLast l = some y ∧ y ∈ l ∧ ∀ x ∈ l, ¬ KeyLt y.1 x.1 := by
  cases l with
  | nil => exact absurd rfl hne
  | cons x rest =>
    obtain ⟨hmem, hacc, hall⟩ := maxGo_spec rest x
    refine ⟨maxGo x rest, rfl, ?_, ?_⟩
    · rcases hmem with h | h
      · rw [h]; exact List.mem_cons_self _ _
      · exact List.mem_cons_of_mem _ h
    · intro y hy
      rcases List.mem_cons.mp hy with rfl | hy
      · exact hacc
      · exact hall y hy

theorem rankChildren_length (r : Rng) :
    ∀ (children : List Node) (k i0 : Nat),
      (rankChildren r k i0 children).1.length = children.length := by
  intro children
  induction children with
  | nil => intro k i0; rfl
  | cons n rest ih =>
    intro k i0
    simp only [rankChildren, List.length_cons]
    rw [ih]

theorem rankChildren_mem (r : Rng) :
    ∀ (children : List Node) (k i0 : Nat) (e : (Nat × ℚ × Int) × Nat × Node),
      e ∈ (rankChildren r k i0 children).1 →
        ∃ j, children[j]? = some e.2.2 ∧ e.2.1 = i0 + j ∧ e.1.1 = e.2.2.rank_ordinal := by
  intro children
  induction children with
  | nil => intro k i0 e he; exact absurd he (by simp [rankChildren])
  | cons n rest ih =>
    intro k i0 e he
    simp only [rankChildren, List.mem_cons] at he
    rcases he with rfl | he
    · exact ⟨0, by simp, by simp, rfl⟩
    · obtain ⟨j, h1, h2, h3⟩ := ih _ (i0 + 1) e he
      exact ⟨j + 1, by simpa using h1, by omega, h3⟩

theorem rankChildren_mem_of (r : Rng) :
    ∀ (children : List Node) (k i0 j : Nat) (n : Node), children[j]? = some n →
      ∃ key, (key, i0 + j, n) ∈ (rankChildren r k i0 children).1 := by
  intro children
  induction children with
  | nil => intro k i0 j n h; rw [List.getElem?_nil] at h; cases h
  | cons m rest ih =>
    intro k i0 j n h
    cases j with
    | zero =>
      rw [List.getElem?_cons_zero] at h
      cases h
      exact ⟨(m.rank_key r k).1, by simp [rankChildren]⟩
    | succ j2 =>
      rw [List.getElem?_cons_succ] at h
      obtain ⟨key, hkey⟩ := ih (m.rank_key r k).2 (i0 + 1) j2 n h
      refine ⟨key, ?_⟩
      simp only [rankChildren, List.mem_cons]
      right
      have : i0 + 1 + j2 = i0 + (j2 + 1) := by omega
      rw [← this]
      exact hkey

theorem rank_ordinal_le (n : Node) : n.rank_ordinal ≤ 3 := by
  cases n <;> simp [Node.rank_ordinal]

theorem rank_ordinal_three (n : Node) (h : n.rank_ordinal = 3) :
    ∃ c, n = .CertainLoss c := by
  cases n <;> simp [Node.rank_ordinal] at h ⊢

theorem rank_ordinal_one (n : Node) (h : n.rank_ordinal = 1) :
    ∃ c, n = .CertainDraw c := by
  cases n <;> simp [Node.rank_ordinal] at h ⊢

theorem prob_select (r : Rng) (k : Nat) (children : List Node) (hne : children ≠ []) :
    ∃ (key : Nat × ℚ × Int) (i : Nat) (node : Node),
      maxByLast (rankChildren r k 0 children).1 = some (key, i, node) ∧
      children[i]? = some node ∧
      ∀ (j : Nat) (n2 : Node), children[j]? = some n2 →
        n2.rank_ordinal ≤ node.rank_ordinal := by
  have hkne : (rankChildren r k 0 children).1 ≠ [] := by
    intro h
    have hl := rankChildren_length r children k 0
    rw [h] at hl
    simp only [List.length_nil] at hl
    exact hne (List.length_eq_zero.mp hl.symm)
  obtain ⟨y, hy, hymem, hymax⟩ := maxByLast_spec _ hkne
  obtain ⟨j, hj1, hj2, hj3⟩ := rankChildren_mem r children k 0 y hymem
  refine ⟨y.1, y.2.1, y.2.2, by rw [hy], by rw [hj2]; simpa using hj1, ?_⟩
  intro j2 n2 hn2
  obtain ⟨key2, hkey2⟩ := rankChildren_mem_of r children k 0 j2 n2 hn2
  have hord2 : key2.1 = n2.rank_ordinal := by
    obtain ⟨j3, _, _, h3⟩ := rankChildren_mem r children k 0 (key2, 0 + j2, n2) hkey2
    exact h3
  have hnl := hymax _ hkey2
  by_contra hcc
  apply hnl
  unfold KeyLt
  left
  rw [hj3, hord2]
  omega

/-- C2: on a visit of a Probabilistic node by explore, any CertainLoss
child folds the node to CertainWin (in particular when every child is a
loss); all children CertainWin folds it to CertainLoss; all children
CertainWin-or-CertainDraw with at least one draw folds it to
CertainDraw; in each case the replacement verdict's depth is the
deciding (selected) child's depth plus one and its index is that
child's index. This holds for every oracle stream, board, prior
statistics and remaining fuel. -/
theorem c2 (r : Rng) (fuel k : Nat) (b : Board) (score nplay : ℚ) (children : List Node)
    (hne : children ≠ []) :
    ((∃ c : Certain, Node.CertainLoss c ∈ children) →
      ∃ (i : Nat) (c : Certain) (k2 : Nat), children[i]? = some (.CertainLoss c) ∧
        Node.exploreFuel r (fuel + 1) k b (.Probabilistic score nplay children) =
          some (0, .CertainWin { depth := c.depth + 1, index := i }, k2)) ∧
    ((∀ n ∈ children, ∃ c : Certain, n = .CertainWin c) →
      ∃ (i : Nat) (c : Certain) (k2 : Nat), children[i]? = some (.CertainWin c) ∧
        Node.exploreFuel r (fuel + 1) k b (.Probabilistic score nplay children) =
          some (1, .CertainLoss { depth := c.depth + 1, index := i }, k2)) ∧
    ((∀ n ∈ children, (∃ c : Certain, n = .CertainWin c) ∨ (∃ c : Certain, n = .CertainDraw c)) →
      (∃ c : Certain, Node.CertainDraw c ∈ children) →
      ∃ (i : Nat) (c : Certain) (k2 : Nat), children[i]? = some (.CertainDraw c) ∧
        Node.exploreFuel r (fuel + 1) k b (.Probabilistic score nplay children) =
          some (1/2, .CertainDraw { depth := c.depth + 1, index := i }, k2)) := by
  obtain ⟨key, i, node, hsel, hget, hmax⟩ := prob_select r k children hne
  have hunfold : Node.exploreFuel r (fuel + 1) k b (.Probabilistic score nplay children) =
      match node with
      | .CertainLoss c => some (0, .CertainWin (c.parent i), (rankChildren r k 0 children).2)
      | .CertainWin c => some (1, .CertainLoss (c.parent i), (rankChildren r k 0 children).2)
      | .CertainDraw c => some (1/2, .CertainDraw (c.parent i), (rankChildren r k 0 children).2)
      | _ =>
        match b.legalMovesList[i]? with
        | none => none
        | some m =>
          match Node.exploreFuel r fuel (rankChildren r k 0 children).2
              (b.make_legal_move m).2 node with
          | none => none
          | some (cs, cnode1, k2) =>
            some (1 - cs, .Probabilistic (score + (1 - cs)) (nplay + 1)
              (children.set i cnode1), k2) := by
    rw [Node.exploreFuel]
    simp only [hsel]
    cases node <;> rfl
  refine ⟨?_, ?_, ?_⟩
  · rintro ⟨c, hc⟩
    obtain ⟨j, hjlt, hjeq⟩ := List.mem_iff_getElem.mp hc
    have hjsome : children[j]? = some (.CertainLoss c) := by
      rw [List.getElem?_eq_getElem hjlt, hjeq]
    have hord := hmax j _ hjsome
    have h3 : node.rank_ordinal = 3 := by
      have hle := rank_ordinal_le node
      have he : (Node.CertainLoss c).rank_ordinal = 3 := rfl
      rw [he] at hord
      omega
    obtain ⟨c2, rfl⟩ := rank_ordinal_three node h3
    exact ⟨i, c2, (rankChildren r k 0 children).2, hget, by rw [hunfold]; rfl⟩
  · intro hall
    have hnode := hall node (List.getElem?_mem hget)
    obtain ⟨c, rfl⟩ := hnode
    exact ⟨i, c, (rankChildren r k 0 children).2, hget, by rw [hunfold]; rfl⟩
  · intro hall hdraw
    obtain ⟨c, hc⟩ := hdraw
    obtain ⟨j, hjlt, hjeq⟩ := List.mem_iff_getElem.mp hc
    have hjsome : children[j]? = some (.CertainDraw c) := by
      rw [List.getElem?_eq_getElem hjlt, hjeq]
    have hord := hmax j _ hjsome
    rcases hall node (List.getElem?_mem hget) with ⟨c2, rfl⟩ | ⟨c2, rfl⟩
    · have he1 : (Node.CertainDraw c).rank_ordinal = 1 := rfl
      have he2 : (Node.CertainWin c2).rank_ordinal = 0 := rfl
      rw [he1, he2] at hord
      omega
    · exact ⟨i, c2, (rankChildren r k 0 children).2, hget, by rw [hunfold]; rfl⟩

/-- Witness for c2: a Probabilistic node whose children are a certain
loss at depth 1 and an unvisited node folds to CertainWin at depth 2,
index 0, on the next explore visit. -/
theorem c2_witness :
    ∃ (i : Nat) (c : Certain) (k2 : Nat),
      ([Node.CertainLoss { depth := 1, index := 0 }, Node.Unvisited] : List Node)[i]? =
        some (.CertainLoss c) ∧
      Node.exploreFuel (Rng.mk (fun _ => 0) (fun _ => 0)) 1 0 (Board.new 2)
          (.Probabilistic 1 2 [Node.CertainLoss { depth := 1, index := 0 }, Node.Unvisited]) =
        some (0, .CertainWin { depth := c.depth + 1, index := i }, k2) :=
  (c2 (Rng.mk (fun _ => 0) (fun _ => 0)) 0 0 (Board.new 2) 1 2
      [Node.CertainLoss { depth := 1, index := 0 }, Node.Unvisited] (by simp)).1
    ⟨{ depth := 1, index := 0 }, by simp⟩

/-! ## C8: playouts on invariant-satisfying ongoing boards -/

theorem mem_legal_annotated (b : Board) (lm : LegalMove) (h : lm ∈ b.legalMovesList) :
    lm.base.annotated b = some lm := by
  rw [legalMovesList_eq_filterMap, List.mem_filterMap] at h
  obtain ⟨m, _, hann⟩ := h
  have hb := (annotated_some_props b m lm hann).2.1
  rw [hb]
  exact hann

theorem cworGo_mem (r : Rng) (S : List LegalMove) :
    ∀ (l : List LegalMove) (i : Nat) (m : LegalMove) (k : Nat), m ∈ S → (∀ x ∈ l, x ∈ S) →
      (cworGo r l i m k).1 ∈ S := by
  intro l
  induction l with
  | nil => intro i m k hm _; exact hm
  | cons m1 rest ih =>
    intro i m k hm hsub
    rw [cworGo]
    by_cases hw : m1.is_winning
    · rw [if_pos hw]
      exact hsub m1 (List.mem_cons_self _ _)
    · rw [if_neg hw]
      by_cases hr : r.nats k % (i + 2) = 0
      · rw [if_pos hr]
        exact ih (i + 1) m1 (k + 1) (hsub m1 (List.mem_cons_self _ _))
          (fun x hx => hsub x (List.mem_cons_of_mem _ hx))
      · rw [if_neg hr]
        exact ih (i + 1) m (k + 1) hm (fun x hx => hsub x (List.mem_cons_of_mem _ hx))

theorem chooseWinningOrRandom_some (r : Rng) (k : Nat) (b : Board)
    (hne : b.legalMovesList ≠ []) :
    ∃ lm k2, chooseWinningOrRandom r k b = some (lm, k2) ∧ lm ∈ b.legalMovesList := by
  cases hl : b.legalMovesList with
  | nil => exact absurd hl hne
  | cons m rest =>
    unfold chooseWinningOrRandom
    rw [hl]
    by_cases hw : m.is_winning
    · exact ⟨m, k, by simp [hw], List.mem_cons_self _ _⟩
    · refine ⟨(cworGo r rest 0 m k).1, (cworGo r rest 0 m k).2, by simp [hw], ?_⟩
      exact cworGo_mem r (m :: rest) rest 0 m k (List.mem_cons_self _ _)
        (fun x hx => List.mem_cons_of_mem _ hx)

theorem mlm_ongoing_nlegal (b : Board) (lm : LegalMove)
    (h1 : (b.make_legal_move lm).1 = .Ongoing) :
    (b.make_legal_move lm).2.nlegal ≠ 0 := by
  rw [make_legal_move_fst] at h1
  simp only [Board.make_legal_move] at h1 ⊢
  by_cases hw : lm.is_winning
  · rw [if_pos hw] at h1
    simp at h1
  · rw [if_neg hw] at h1 ⊢
    by_cases hn : (b.set lm.row lm.col b.active).nlegal = 0
    · rw [if_pos hn] at h1
      simp at h1
    · rw [if_neg hn] at h1 ⊢
      exact hn

theorem emptyCells_congr (b1 b2 : Board) (hd : b1.data = b2.data) :
    b1.emptyCells = b2.emptyCells := by
  unfold Board.emptyCells
  rw [hd]

theorem emptyCells_pos (b : Board) (r c : Nat)
    (hi : b.index_for r c < b.data.length) (hemp : b.get_unchecked r c = .Empty) :
    0 < b.emptyCells := by
  unfold Board.emptyCells
  rw [List.countP_pos_iff]
  refine ⟨b.data[b.index_for r c], List.getElem_mem hi, ?_⟩
  unfold Board.get_unchecked at hemp
  rw [List.getD, List.get?_eq_getElem?, List.getElem?_eq_getElem hi] at hemp
  simp only [Option.getD_some] at hemp
  rw [hemp]
  rfl

theorem playout_terminates (r : Rng) :
    ∀ (e : Nat) (b : Board), b.emptyCells ≤ e → b.Inv → b.size ≠ 1 →
      b.state = .Ongoing → 0 < b.nlegal → ∀ (fuel : Nat), e ≤ fuel → ∀ (k : Nat) (score : ℚ),
      ∃ (sc : ℚ) (k2 : Nat), chooseUnvisitedRestGo r fuel k b score = some (sc, k2) := by
  intro e
  induction e with
  | zero =>
    intro b he hInv hsz hst hn fuel hf k score
    exfalso
    have hne : b.legalMovesList ≠ [] := by
      intro hl
      have := legalMovesList_length b
      rw [hl] at this
      simp only [List.length_nil] at this
      rw [hInv.2.2] at hn
      omega
    obtain ⟨lm, hlm⟩ : ∃ lm, lm ∈ b.legalMovesList := by
      cases hl : b.legalMovesList with
      | nil => exact absurd hl hne
      | cons x rest => exact ⟨x, List.mem_cons_self _ _⟩
    have hann := mem_legal_annotated b lm hlm
    obtain ⟨hrow, hcol, hemp⟩ := annotated_some_cell b lm.base lm hann
    have hpos := emptyCells_pos b lm.row lm.col
      (by rw [hInv.1]; exact index_lt_of_lt b _ _ hrow hcol) hemp
    omega
  | succ e ih =>
    intro b he hInv hsz hst hn fuel hf k score
    have hne : b.legalMovesList ≠ [] := by
      intro hl
      have := legalMovesList_length b
      rw [hl] at this
      simp only [List.length_nil] at this
      rw [hInv.2.2] at hn
      omega
    obtain ⟨lm, k1, hcw, hmem⟩ := chooseWinningOrRandom_some r k b hne
    have hann := mem_legal_annotated b lm hmem
    obtain ⟨hrow, hcol, hemp⟩ := annotated_some_cell b lm.base lm hann
    have hilt : b.index_for lm.row lm.col < b.data.length := by
      rw [hInv.1]
      exact index_lt_of_lt b _ _ hrow hcol
    have hane : b.active ≠ .Empty := by
      rcases hInv.2.1 with h2 | h2 <;> rw [h2] <;> intro hcc <;> cases hcc
    have hdec : (b.make_legal_move lm).2.emptyCells + 1 = b.emptyCells := by
      rw [emptyCells_congr (b.make_legal_move lm).2 (b.set lm.row lm.col b.active)
        (make_legal_move_fields b lm).1]
      exact Board.emptyCells_set b lm.row lm.col b.active hilt hemp hane
    obtain ⟨f, rfl⟩ : ∃ f, fuel = f + 1 := ⟨fuel - 1, by omega⟩
    have hstep : chooseUnvisitedRestGo r (f + 1) k b score =
        match (b.make_legal_move lm).1 with
        | .Won => some (score, k1)
        | .Drawn => some (1/2, k1)
        | .Ongoing => chooseUnvisitedRestGo r f k1 (b.make_legal_move lm).2 (1 - score) := by
      rw [chooseUnvisitedRestGo, hcw]
    rw [hstep]
    cases hres : (b.make_legal_move lm).1 with
    | Won => exact ⟨score, k1, rfl⟩
    | Drawn => exact ⟨1/2, k1, rfl⟩
    | Ongoing =>
      have hInv1 := Inv_make_legal_move b lm.base lm hsz hInv hann
      have hsz1 : (b.make_legal_move lm).2.size ≠ 1 := by
        rw [make_legal_move_size]
        exact hsz
      have hst1 : (b.make_legal_move lm).2.state = .Ongoing := by
        rw [← make_legal_move_fst]
        exact hres
      have hn1 : 0 < (b.make_legal_move lm).2.nlegal := by
        have := mlm_ongoing_nlegal b lm hres
        omega
    
      exact ih (b.make_legal_move lm).2 (by omega) hInv1 hsz1 hst1 hn1 f (by omega) k1
        (1 - score)

/-- C8 counterexample: the board obtained from Board::new(2) by placing
Blocks on all four cells (a Board::generate(2, 4) outcome) is reachable
and still Ongoing, yet it has no legal move: choose_winning_or_random
fails (unwrap on None) and the playout choose_unvisited_rest cannot
finish, refuting the claim that an Ongoing outcome alone guarantees a
playout never fails. -/
theorem c8_counterexample :
    Reachable (((((Board.new 2).set 0 0 .Block).set 0 1 .Block).set 1 0 .Block).set 1 1 .Block) ∧
    (((((Board.new 2).set 0 0 .Block).set 0 1 .Block).set 1 0 .Block).set 1 1 .Block).state =
      GameState.Ongoing ∧
    chooseWinningOrRandom (Rng.mk (fun _ => 0) (fun _ => 0)) 0
      (((((Board.new 2).set 0 0 .Block).set 0 1 .Block).set 1 0 .Block).set 1 1 .Block) = none ∧
    chooseUnvisitedRest (Rng.mk (fun _ => 0) (fun _ => 0)) 4 0
      (((((Board.new 2).set 0 0 .Block).set 0 1 .Block).set 1 0 .Block).set 1 1 .Block) = none := by
  have hcw : chooseWinningOrRandom (Rng.mk (fun _ => 0) (fun _ => 0)) 0
      (((((Board.new 2).set 0 0 .Block).set 0 1 .Block).set 1 0 .Block).set 1 1 .Block) = none := by
    unfold chooseWinningOrRandom
    rw [legalMovesList_eq_filterMap]
    rfl
  refine ⟨?_, by decide, hcw, ?_⟩
  · exact Reachable.genStep _ 1 1
      (Reachable.genStep _ 1 0
        (Reachable.genStep _ 0 1
          (Reachable.genStep _ 0 0 (Reachable.new 2) (by decide) (by decide) (by decide))
          (by decide) (by decide) (by decide))
        (by decide) (by decide) (by decide))
      (by decide) (by decide) (by decide)
  · unfold chooseUnvisitedRest
    rw [chooseUnvisitedRestGo, hcw]

/-- C8 (amended): for every board satisfying the representation
invariant, of size other than 1, with outcome Ongoing and nlegal > 0,
choose_winning_or_random returns a currently legal move, and the random
playout choose_unvisited_rest never fails and terminates in a Won or
Drawn state within size*size moves of fuel, for every oracle stream;
each ply fills one Empty cell. -/
theorem c8 (b : Board) (hInv : b.Inv) (hsz : b.size ≠ 1) (hst : b.state = .Ongoing)
    (hn : 0 < b.nlegal) (r : Rng) (k : Nat) :
    (∃ (lm : LegalMove) (k2 : Nat), chooseWinningOrRandom r k b = some (lm, k2) ∧
      lm ∈ b.legalMovesList) ∧
    (∃ (sc : ℚ) (k2 : Nat), chooseUnvisitedRest r (b.size * b.size) k b = some (sc, k2)) := by
  have hne : b.legalMovesList ≠ [] := by
    intro hl
    have hlen := legalMovesList_length b
    rw [hl] at hlen
    simp only [List.length_nil] at hlen
    rw [hInv.2.2] at hn
    omega
  refine ⟨chooseWinningOrRandom_some r k b hne, ?_⟩
  unfold chooseUnvisitedRest
  refine playout_terminates r b.emptyCells b (le_refl _) hInv hsz hst hn (b.size * b.size)
    ?_ k 1
  have h1 : b.emptyCells ≤ b.data.length := by
    unfold Board.emptyCells
    exact List.countP_le_length _
  rw [hInv.1] at h1
  exact h1

/-- Witness for c8 on a fresh size-2 board. -/
theorem c8_witness :
    (∃ (lm : LegalMove) (k2 : Nat),
      chooseWinningOrRandom (Rng.mk (fun _ => 0) (fun _ => 0)) 0 (Board.new 2) =
        some (lm, k2) ∧ lm ∈ (Board.new 2).legalMovesList) ∧
    (∃ (sc : ℚ) (k2 : Nat),
      chooseUnvisitedRest (Rng.mk (fun _ => 0) (fun _ => 0))
        ((Board.new 2).size * (Board.new 2).size) 0 (Board.new 2) = some (sc, k2)) :=
  c8 (Board.new 2)
    ⟨by decide, Or.inl rfl, by rw [edgeEmptyCount_eq]; decide⟩
    (by decide) (by decide) (by decide) (Rng.mk (fun _ => 0) (fun _ => 0)) 0

end ZG4

